import Mathlib

/-!
Shallow embedding of the cracking engine of the archive-password-cracker
repository, together with proofs about its index enumerators, pattern
analyzer, Bloom filter, worker dispatch chunking, worker stop handling and
controller finalization.

Machine integers (`uint64_t`) are modelled as `Nat` with explicit overflow
guards against `U64MAX`, exactly where the source checks them.  Strings are
`List Char`, byte buffers are `List Nat`, and fallible functions return
`Option`.
-/

/-- The value of std::numeric_limits of unsigned 64-bit max, 2^64 - 1. -/
def U64MAX : Nat := 18446744073709551615

/-- 2^64, the modulus of unsigned 64-bit arithmetic. -/
def TWO64 : Nat := 18446744073709551616

/-- Sum of the consecutive powers C^start + C^(start+1) + ... + C^(start+n-1).
These are the cumulative window sizes of the length-ordered enumeration. -/
def sumPow (C start : Nat) : Nat → Nat
  | 0 => 0
  | n + 1 => C ^ start + sumPow C (start + 1) n

/-- Number of strings over a charset of size C with length in 1..L:
the total size of the length-ordered enumeration up to length L. -/
def prefixCount (C L : Nat) : Nat := sumPow C 1 L

/-- The inner write loop of getPasswordByIndex (part_000 lines 304-313): the
length-len password with local index x, most-significant digit first, so the
character at position len-1-i is charset[(x / C^i) mod C].  (The C++ loop
pre-fills the string with charset[0] and breaks once the running quotient
reaches zero; the cells it skips keep charset[0], which is exactly the value
the digit formula produces there, so the early break is a pure optimization.) -/
def passwordDigits (charset : List Char) (x : Nat) : Nat → List Char
  | 0 => []
  | len + 1 =>
      passwordDigits charset (x / charset.length) len ++
        [charset.getD (x % charset.length) 'a']

/-- The per-length loop of getPasswordByIndex (part_000 lines 287-319).
curIdx is current_index, power carries combinations_power, len the current
length, fuel the remaining lengths up to max_possible_length.  none models a
false return (index out of range, or the 64-bit overflow guard fired). -/
def passwordIndexLoop (charset : List Char) : Nat → Nat → Nat → Nat → Option (List Char)
  | _, _, _, 0 => none
  | curIdx, power, len, fuel + 1 =>
      let cs := charset.length
      if len = 1 then
        if curIdx < cs then some (passwordDigits charset curIdx len)
        else passwordIndexLoop charset (curIdx - cs) cs (len + 1) fuel
      else
        if U64MAX / cs < power then none
        else
          let combos := power * cs
          if curIdx < combos then some (passwordDigits charset curIdx len)
          else passwordIndexLoop charset (curIdx - combos) combos (len + 1) fuel

/-- getPasswordByIndex (part_000 lines 280-321); some pwd models a true return
with pwd written to the out parameter. -/
def getPasswordByIndex (index : Nat) (charset : List Char) (maxLen : Nat) : Option (List Char) :=
  if charset.length = 0 then none
  else passwordIndexLoop charset index 1 1 maxLen

theorem sumPow_succ_right (C : Nat) (n : Nat) :
    ∀ s, sumPow C s (n + 1) = sumPow C s n + C ^ (s + n) := by
  induction n with
  | zero => intro s; simp [sumPow]
  | succ n ih =>
      intro s
      rw [sumPow, ih (s + 1), sumPow]
      have : s + 1 + n = s + (n + 1) := by omega
      rw [this, Nat.add_assoc]

theorem sumPow_le_sumPow (C s : Nat) {n m : Nat} (h : n ≤ m) : sumPow C s n ≤ sumPow C s m := by
  induction m with
  | zero =>
      have : n = 0 := by omega
      subst this; exact le_rfl
  | succ m ih =>
      rcases Nat.lt_or_ge n (m + 1) with h' | h'
      · exact le_trans (ih (by omega)) (by rw [sumPow_succ_right]; omega)
      · have : n = m + 1 := by omega
        subst this; exact le_rfl

theorem sumPow_one_eq (C : Nat) {L : Nat} (h1 : 1 ≤ L) :
    sumPow C 1 L = sumPow C 1 (L - 1) + C ^ L := by
  have h : L - 1 + 1 = L := by omega
  have := sumPow_succ_right C (L - 1) 1
  rw [h] at this
  rw [this]
  congr 2
  omega

theorem pow_le_sumPow (C : Nat) {L Lmax : Nat} (h1 : 1 ≤ L) (h2 : L ≤ Lmax) :
    C ^ L ≤ sumPow C 1 Lmax := by
  calc C ^ L ≤ sumPow C 1 L := by rw [sumPow_one_eq C h1]; omega
    _ ≤ sumPow C 1 Lmax := sumPow_le_sumPow C 1 h2

theorem passwordDigits_length (charset : List Char) (x len : Nat) :
    (passwordDigits charset x len).length = len := by
  induction len generalizing x with
  | zero => rfl
  | succ n ih => simp [passwordDigits, ih]

theorem passwordDigits_getD (charset : List Char) :
    ∀ len x j, j < len →
      (passwordDigits charset x len).getD (len - 1 - j) 'a' =
        charset.getD (x / charset.length ^ j % charset.length) 'a' := by
  intro len
  induction len with
  | zero => intro x j hj; omega
  | succ len ih =>
      intro x j hj
      rw [passwordDigits]
      have hlen : (passwordDigits charset (x / charset.length) len).length = len :=
        passwordDigits_length charset _ len
      rcases Nat.eq_zero_or_pos j with hj0 | hjpos
      · subst hj0
        have hpos : len + 1 - 1 - 0 = len := by omega
        rw [hpos]
        rw [List.getD_append_right _ _ _ _ (by omega), hlen]
        simp
      · obtain ⟨j', rfl⟩ : ∃ j', j = j' + 1 := ⟨j - 1, by omega⟩
        have hj' : j' < len := by omega
        have hpos : len + 1 - 1 - (j' + 1) = len - 1 - j' := by omega
        rw [hpos]
        rw [List.getD_append _ _ _ _ (by rw [hlen]; omega)]
        rw [ih (x / charset.length) j' hj']
        have : x / charset.length / charset.length ^ j' = x / charset.length ^ (j' + 1) := by
          rw [Nat.div_div_eq_div_mul, pow_succ, Nat.mul_comm (charset.length ^ j')]
        rw [this]

theorem passwordDigits_mem (charset : List Char) (hcs : charset ≠ []) :
    ∀ len x c, c ∈ passwordDigits charset x len → c ∈ charset := by
  intro len
  induction len with
  | zero => intro x c hc; simp [passwordDigits] at hc
  | succ len ih =>
      intro x c hc
      rw [passwordDigits] at hc
      rcases List.mem_append.mp hc with h | h
      · exact ih _ c h
      · rcases List.mem_singleton.mp h with rfl
        have hlt : x % charset.length < charset.length := by
          have h0 : charset.length ≠ 0 := fun h0 => hcs (List.length_eq_zero.mp h0)
          exact Nat.mod_lt _ (by omega)
        rw [List.getD_eq_getElem _ _ hlt]
        exact List.getElem_mem hlt

theorem passwordDigits_inj (charset : List Char) (hnd : charset.Nodup) :
    ∀ len x y, x < charset.length ^ len → y < charset.length ^ len →
      passwordDigits charset x len = passwordDigits charset y len → x = y := by
  intro len
  induction len with
  | zero => intro x y hx hy _; simp at hx hy; omega
  | succ len ih =>
      intro x y hx hy heq
      have hcs : 0 < charset.length := by
        by_contra h
        have : charset.length = 0 := by omega
        simp [this] at hx
      rw [passwordDigits, passwordDigits] at heq
      have hlen : (passwordDigits charset (x / charset.length) len).length =
          (passwordDigits charset (y / charset.length) len).length := by
        rw [passwordDigits_length, passwordDigits_length]
      obtain ⟨h1, h2⟩ := List.append_inj heq hlen
      have hxm : x % charset.length < charset.length := Nat.mod_lt _ hcs
      have hym : y % charset.length < charset.length := Nat.mod_lt _ hcs
      have hcc : charset.getD (x % charset.length) 'a' = charset.getD (y % charset.length) 'a' := by
        simpa using h2
      rw [List.getD_eq_getElem _ _ hxm, List.getD_eq_getElem _ _ hym] at hcc
      have hmod : x % charset.length = y % charset.length := by
        have := List.nodup_iff_injective_get.mp hnd
          (show charset.get ⟨x % charset.length, hxm⟩ = charset.get ⟨y % charset.length, hym⟩ by
            simpa using hcc)
        simpa using this
      have hxd : x / charset.length < charset.length ^ len := by
        rw [Nat.div_lt_iff_lt_mul hcs]
        calc x < charset.length ^ (len + 1) := hx
          _ = charset.length ^ len * charset.length := by rw [pow_succ]
      have hyd : y / charset.length < charset.length ^ len := by
        rw [Nat.div_lt_iff_lt_mul hcs]
        calc y < charset.length ^ (len + 1) := hy
          _ = charset.length ^ len * charset.length := by rw [pow_succ]
      have hdiv : x / charset.length = y / charset.length := ih _ _ hxd hyd h1
      calc x = charset.length * (x / charset.length) + x % charset.length :=
            (Nat.div_add_mod x _).symm
        _ = charset.length * (y / charset.length) + y % charset.length := by rw [hdiv, hmod]
        _ = y := Nat.div_add_mod y _

theorem passwordDigits_surj (charset : List Char) :
    ∀ len (pwd : List Char), pwd.length = len → (∀ c ∈ pwd, c ∈ charset) →
      ∃ x, x < charset.length ^ len ∧ passwordDigits charset x len = pwd := by
  intro len
  induction len with
  | zero =>
      intro pwd hl _
      exact ⟨0, by simp, by simpa [passwordDigits] using List.length_eq_zero.mp hl⟩
  | succ len ih =>
      intro pwd hl hmem
      have hne : pwd ≠ [] := by
        intro h; subst h; simp at hl
      obtain ⟨front, c, rfl⟩ : ∃ front c, pwd = front ++ [c] := by
        refine ⟨pwd.dropLast, pwd.getLast hne, ?_⟩
        rw [List.dropLast_append_getLast hne]
      have hcl : c ∈ charset := hmem c (by simp)
      obtain ⟨d, hdc⟩ := List.mem_iff_get.mp hcl
      have hcs : 0 < charset.length := d.pos
      have hfl : front.length = len := by
        simp at hl; omega
      obtain ⟨x', hx', hpd⟩ := ih front hfl (fun c' hc' => hmem c' (by simp [hc']))
      refine ⟨x' * charset.length + d.1, ?_, ?_⟩
      · calc x' * charset.length + d.1 < (x' + 1) * charset.length := by
              have := d.2; calc x' * charset.length + d.1
                  < x' * charset.length + charset.length := by omega
                _ = (x' + 1) * charset.length := by ring
          _ ≤ charset.length ^ len * charset.length :=
              Nat.mul_le_mul_right _ (by omega)
          _ = charset.length ^ (len + 1) := by rw [pow_succ]
      · rw [passwordDigits]
        have hdiv : (x' * charset.length + d.1) / charset.length = x' := by
          rw [Nat.mul_comm x', Nat.mul_add_div hcs]
          simp [Nat.div_eq_of_lt d.2]
        have hmod : (x' * charset.length + d.1) % charset.length = d.1 := by
          rw [Nat.mul_comm x', Nat.mul_add_mod]
          exact Nat.mod_eq_of_lt d.2
        rw [hdiv, hmod, hpd]
        have : charset.getD d.1 'a' = c := by
          rw [List.getD_eq_getElem _ _ d.2, ← hdc]
          simp [List.get_eq_getElem]
        rw [this]

/-- The per-length loop lands on the window of length L and emits the digits of
the local index x, provided the target power fits in 64 bits. -/
theorem passwordIndexLoop_spec (charset : List Char) (hcs : 0 < charset.length) :
    ∀ fuel len0 L x, 1 ≤ len0 → len0 ≤ L → L < len0 + fuel →
      x < charset.length ^ L → charset.length ^ L ≤ U64MAX →
      passwordIndexLoop charset (sumPow charset.length len0 (L - len0) + x)
          (charset.length ^ (len0 - 1)) len0 fuel =
        some (passwordDigits charset x L) := by
  intro fuel
  induction fuel with
  | zero => intro len0 L x h1 h2 h3 _ _; omega
  | succ fuel ih =>
      intro len0 L x h1 h2 h3 hx hfit
      have hpow1 : charset.length ^ (len0 - 1) * charset.length = charset.length ^ len0 := by
        rw [← pow_succ]; congr 1; omega
      have hguard : ¬ (U64MAX / charset.length < charset.length ^ (len0 - 1)) := by
        push_neg
        rw [Nat.le_div_iff_mul_le hcs, hpow1]
        exact le_trans (Nat.pow_le_pow_right hcs h2) hfit
      rcases Nat.eq_or_lt_of_le h2 with rfl | hlt
      · have hsum0 : sumPow charset.length len0 (len0 - len0) + x = x := by
          simp [Nat.sub_self, sumPow]
        simp only [passwordIndexLoop, hsum0]
        by_cases h1' : len0 = 1
        · subst h1'
          rw [if_pos rfl, if_pos (by simpa using hx)]
        · rw [if_neg h1', if_neg hguard, hpow1, if_pos hx]
      · have hsum : sumPow charset.length len0 (L - len0) =
            charset.length ^ len0 + sumPow charset.length (len0 + 1) (L - (len0 + 1)) := by
          have hL : L - len0 = (L - (len0 + 1)) + 1 := by omega
          rw [hL, sumPow]
        have hnext := ih (len0 + 1) L x (by omega) (by omega) (by omega) hx hfit
        have hps : charset.length ^ (len0 + 1 - 1) = charset.length ^ len0 := by congr 1
        rw [hps] at hnext
        simp only [passwordIndexLoop]
        by_cases h1' : len0 = 1
        · subst h1'
          rw [if_pos rfl]
          have hxcs : ¬ (sumPow charset.length 1 (L - 1) + x < charset.length) := by
            rw [hsum]; simp only [pow_one]; omega
          rw [if_neg hxcs]
          have harg : sumPow charset.length 1 (L - 1) + x - charset.length =
              sumPow charset.length (1 + 1) (L - (1 + 1)) + x := by
            rw [hsum]; simp only [pow_one]; omega
          rw [harg]
          simpa using hnext
        · rw [if_neg h1', if_neg hguard, hpow1]
          have hxcs : ¬ (sumPow charset.length len0 (L - len0) + x < charset.length ^ len0) := by
            rw [hsum]; omega
          rw [if_neg hxcs]
          have harg : sumPow charset.length len0 (L - len0) + x - charset.length ^ len0 =
              sumPow charset.length (len0 + 1) (L - (len0 + 1)) + x := by
            rw [hsum]; omega
          rw [harg]
          exact hnext

/-- getPasswordByIndex at the global index prefixCount(L-1) + x yields the
digit string of the local index x at length L. -/
theorem getPasswordByIndex_spec (charset : List Char) (hcs : 0 < charset.length)
    {L x maxLen : Nat} (h1 : 1 ≤ L) (h2 : L ≤ maxLen)
    (hx : x < charset.length ^ L) (hfit : charset.length ^ L ≤ U64MAX) :
    getPasswordByIndex (prefixCount charset.length (L - 1) + x) charset maxLen =
      some (passwordDigits charset x L) := by
  rw [getPasswordByIndex, if_neg (by omega)]
  have h := passwordIndexLoop_spec charset hcs maxLen 1 L x le_rfl h1 (by omega) hx hfit
  simpa [prefixCount] using h

/-- Every global index below the total count decomposes uniquely into a length
window and a local index. -/
theorem index_decompose (C : Nat) :
    ∀ Lmax i, i < sumPow C 1 Lmax →
      ∃ L x, 1 ≤ L ∧ L ≤ Lmax ∧ x < C ^ L ∧ i = sumPow C 1 (L - 1) + x := by
  intro Lmax
  induction Lmax with
  | zero => intro i hi; simp [sumPow] at hi
  | succ Lmax ih =>
      intro i hi
      rcases Nat.lt_or_ge i (sumPow C 1 Lmax) with h | h
      · obtain ⟨L, x, hL1, hL2, hx, hix⟩ := ih i h
        exact ⟨L, x, hL1, by omega, hx, hix⟩
      · have hs := sumPow_succ_right C Lmax 1
        have h1L : 1 + Lmax = Lmax + 1 := by omega
        rw [h1L] at hs
        have hred : sumPow C 1 (Lmax + 1 - 1) = sumPow C 1 Lmax := by norm_num
        exact ⟨Lmax + 1, i - sumPow C 1 Lmax, by omega, le_rfl, by omega, by omega⟩

theorem index_decompose_unique (C : Nat) {L x L' x' : Nat}
    (hL : 1 ≤ L) (hL' : 1 ≤ L') (hx : x < C ^ L) (hx' : x' < C ^ L')
    (heq : sumPow C 1 (L - 1) + x = sumPow C 1 (L' - 1) + x') : L = L' ∧ x = x' := by
  have key : ∀ a b ya, 1 ≤ a → 1 ≤ b → a < b → ya < C ^ a →
      sumPow C 1 (a - 1) + ya < sumPow C 1 (b - 1) := by
    intro a b ya ha hb hab hya
    calc sumPow C 1 (a - 1) + ya < sumPow C 1 (a - 1) + C ^ a := by omega
      _ = sumPow C 1 a := (sumPow_one_eq C ha).symm
      _ ≤ sumPow C 1 (b - 1) := sumPow_le_sumPow C 1 (by omega)
  have hLL : L = L' := by
    by_contra hne
    rcases Nat.lt_or_ge L L' with h | h
    · have := key L L' x hL hL' h hx; omega
    · have := key L' L x' hL' hL (by omega) hx'; omega
  subst hLL
  exact ⟨rfl, by omega⟩

/-- C1 counterexample: with the duplicate charset "aa" (size C = 2, Lmax = 1,
index sum 2 fits in 64 bits), the distinct in-range global indices 0 and 1 both
map to the string "a", so the mapping is not a bijection onto the strings of
lengths 1..Lmax over the charset as the claim states. -/
theorem c1_counterexample :
    getPasswordByIndex 0 ['a', 'a'] 1 = some ['a'] ∧
    getPasswordByIndex 1 ['a', 'a'] 1 = some ['a'] ∧
    1 < prefixCount (['a', 'a'] : List Char).length 1 ∧
    prefixCount (['a', 'a'] : List Char).length 1 ≤ U64MAX := by
  refine ⟨by decide, by decide, by decide, by decide⟩

/-- C1 (amended): for every non-empty charset, Lmax at least 1 and global index
i below the total count (the count fitting in 64 bits), getPasswordByIndex
returns the candidate of the length-ordered enumeration: i splits as the
cumulative offset of a length window L plus a local index x, and the output is
the length-L string whose character at position L-1-j is
charset[(x / C^j) mod C]; and provided additionally that the charset has no
repeated characters, the mapping is a bijection onto the strings of lengths
1..Lmax over the charset. -/
theorem c1_amended (charset : List Char) (Lmax : Nat)
    (hne : charset ≠ []) (hL : 1 ≤ Lmax)
    (hfit : prefixCount charset.length Lmax ≤ U64MAX) :
    (∀ i, i < prefixCount charset.length Lmax →
      ∃ L x, 1 ≤ L ∧ L ≤ Lmax ∧ x < charset.length ^ L ∧
        i = prefixCount charset.length (L - 1) + x ∧
        getPasswordByIndex i charset Lmax = some (passwordDigits charset x L) ∧
        (passwordDigits charset x L).length = L ∧
        ∀ j, j < L → (passwordDigits charset x L).getD (L - 1 - j) 'a' =
          charset.getD (x / charset.length ^ j % charset.length) 'a') ∧
    (charset.Nodup →
      ∀ pwd : List Char,
        (1 ≤ pwd.length ∧ pwd.length ≤ Lmax ∧ ∀ c ∈ pwd, c ∈ charset) ↔
          ∃! i, i < prefixCount charset.length Lmax ∧
            getPasswordByIndex i charset Lmax = some pwd) := by
  have hcs : 0 < charset.length := List.length_pos.mpr hne
  have hAll : ∀ i, i < prefixCount charset.length Lmax →
      ∃ L x, 1 ≤ L ∧ L ≤ Lmax ∧ x < charset.length ^ L ∧
        i = prefixCount charset.length (L - 1) + x ∧
        getPasswordByIndex i charset Lmax = some (passwordDigits charset x L) := by
    intro i hi
    obtain ⟨L, x, h1, h2, hx, hix⟩ := index_decompose charset.length Lmax i hi
    have hpowfit : charset.length ^ L ≤ U64MAX :=
      le_trans (pow_le_sumPow charset.length h1 h2) hfit
    refine ⟨L, x, h1, h2, hx, hix, ?_⟩
    rw [hix]
    exact getPasswordByIndex_spec charset hcs h1 h2 hx hpowfit
  constructor
  · intro i hi
    obtain ⟨L, x, h1, h2, hx, hix, hout⟩ := hAll i hi
    exact ⟨L, x, h1, h2, hx, hix, hout, passwordDigits_length charset x L,
      fun j hj => passwordDigits_getD charset L x j hj⟩
  · intro hnd pwd
    constructor
    · rintro ⟨hp1, hp2, hp3⟩
      obtain ⟨x, hx, hpd⟩ := passwordDigits_surj charset pwd.length pwd rfl hp3
      have hcount : prefixCount charset.length (pwd.length - 1) + x <
          prefixCount charset.length Lmax := by
        have hstep : prefixCount charset.length (pwd.length - 1) + charset.length ^ pwd.length =
            prefixCount charset.length pwd.length := (sumPow_one_eq charset.length hp1).symm
        have hmono : prefixCount charset.length pwd.length ≤ prefixCount charset.length Lmax :=
          sumPow_le_sumPow charset.length 1 hp2
        omega
      refine ⟨prefixCount charset.length (pwd.length - 1) + x, ⟨hcount, ?_⟩, ?_⟩
      · rw [getPasswordByIndex_spec charset hcs hp1 hp2 hx
          (le_trans (pow_le_sumPow charset.length hp1 hp2) hfit), hpd]
      · rintro i' ⟨hi', heq'⟩
        obtain ⟨L', x', h1', h2', hx', hix', hout'⟩ := hAll i' hi'
        rw [hout'] at heq'
        have hpd' : passwordDigits charset x' L' = pwd := by
          injection heq'
        have hlen' : L' = pwd.length := by
          rw [← hpd', passwordDigits_length]
        subst hlen'
        have : x' = x := passwordDigits_inj charset hnd pwd.length x' x hx' hx
          (by rw [hpd', hpd])
        omega
    · rintro ⟨i, ⟨hi, heq⟩, _⟩
      obtain ⟨L, x, h1, h2, hx, hix, hout⟩ := hAll i hi
      rw [hout] at heq
      have hpd : passwordDigits charset x L = pwd := by injection heq
      constructor
      · rw [← hpd, passwordDigits_length]; omega
      constructor
      · rw [← hpd, passwordDigits_length]; omega
      · intro c hc
        exact passwordDigits_mem charset hne L x c (by rw [hpd]; exact hc)

/-- Witness for c1_amended at the concrete charset "ab" and Lmax = 2. -/
theorem c1_amended_witness :
    (∀ i, i < prefixCount (['a', 'b'] : List Char).length 2 →
      ∃ L x, 1 ≤ L ∧ L ≤ 2 ∧ x < (['a', 'b'] : List Char).length ^ L ∧
        i = prefixCount (['a', 'b'] : List Char).length (L - 1) + x ∧
        getPasswordByIndex i ['a', 'b'] 2 = some (passwordDigits ['a', 'b'] x L) ∧
        (passwordDigits ['a', 'b'] x L).length = L ∧
        ∀ j, j < L → (passwordDigits ['a', 'b'] x L).getD (L - 1 - j) 'a' =
          (['a', 'b'] : List Char).getD
            (x / (['a', 'b'] : List Char).length ^ j % (['a', 'b'] : List Char).length) 'a') ∧
    ((['a', 'b'] : List Char).Nodup →
      ∀ pwd : List Char,
        (1 ≤ pwd.length ∧ pwd.length ≤ 2 ∧ ∀ c ∈ pwd, c ∈ (['a', 'b'] : List Char)) ↔
          ∃! i, i < prefixCount (['a', 'b'] : List Char).length 2 ∧
            getPasswordByIndex i ['a', 'b'] 2 = some pwd) :=
  c1_amended ['a', 'b'] 2 (by decide) (by decide) (by decide)

/-- The any-one pattern segment, the string "?" produced by parse_pattern. -/
def anyOneSeg : List Char := ['?']

/-- The any-many pattern segment, the string "*" produced by parse_pattern. -/
def anyManySeg : List Char := ['*']

/-- The fixed_length accumulation of calculate_pattern_info (part_000 lines
99-115): literal lengths plus one per any-one segment, any-many contributing
nothing. -/
def fixedLengthOf : List (List Char) → Nat
  | [] => 0
  | seg :: rest =>
      (if seg = anyManySeg then 0 else if seg = anyOneSeg then 1 else seg.length) +
        fixedLengthOf rest

/-- The num_stars accumulation of calculate_pattern_info. -/
def numStars : List (List Char) → Nat
  | [] => 0
  | seg :: rest => (if seg = anyManySeg then 1 else 0) + numStars rest

/-- The num_qmarks count used by calculate_pattern_combinations (part_000 lines
133-137) and getPatternPasswordByIndex. -/
def numQmarks : List (List Char) → Nat
  | [] => 0
  | seg :: rest => (if seg = anyOneSeg then 1 else 0) + numQmarks rest

/-- calculate_pattern_info (part_000 lines 97-117): fixed_length and num_stars
of a segment list (the C++ computes both in one loop over the segments). -/
def calculate_pattern_info (segments : List (List Char)) : Nat × Nat :=
  (fixedLengthOf segments, numStars segments)

/-- The guarded power loop shared by both branches of
calculate_pattern_combinations (part_000 lines 149-156 and 166-172): multiply
combos by charset_size n times, returning none when the 64-bit overflow guard
fires. -/
def mulLoop (cs : Nat) : Nat → Nat → Option Nat
  | combos, 0 => some combos
  | combos, n + 1 =>
      if U64MAX / cs < combos then none else mulLoop cs (combos * cs) n

/-- calculate_pattern_combinations (part_000 lines 120-179).  cs is
charset_size, L the total_length; none models std::nullopt. -/
def calculate_pattern_combinations (segments : List (List Char)) (cs L : Nat) : Option Nat :=
  if cs = 0 then some 0
  else
    let fixedTotal := fixedLengthOf segments
    let stars := numStars segments
    let q := numQmarks segments
    if L < fixedTotal then some 0
    else if stars = 0 then
      if L ≠ fixedTotal then some 0
      else if q = 0 then some 1
      else mulLoop cs 1 q
    else if stars = 1 then
      if q + (L - fixedTotal) = 0 then some 1
      else mulLoop cs 1 (q + (L - fixedTotal))
    else none

theorem mulLoop_eq (cs : Nat) (hcs : 0 < cs) :
    ∀ n combos, combos ≤ U64MAX →
      mulLoop cs combos n =
        if combos * cs ^ n ≤ U64MAX then some (combos * cs ^ n) else none := by
  intro n
  induction n with
  | zero => intro combos h; simp [mulLoop, h]
  | succ n ih =>
      intro combos h
      rw [mulLoop]
      by_cases hg : U64MAX / cs < combos
      · rw [if_pos hg]
        have h1 : U64MAX < combos * cs := (Nat.div_lt_iff_lt_mul hcs).mp hg
        have h2 : combos * cs ≤ combos * cs ^ (n + 1) := by
          have hone : 1 ≤ cs ^ n := Nat.one_le_pow _ _ hcs
          calc combos * cs = combos * cs * 1 := by ring
            _ ≤ combos * cs * cs ^ n := Nat.mul_le_mul_left _ hone
            _ = combos * cs ^ (n + 1) := by rw [pow_succ]; ring
        rw [if_neg (by omega)]
      · rw [if_neg hg]
        have h1 : combos * cs ≤ U64MAX := by
          have := (Nat.div_lt_iff_lt_mul hcs).not.mp hg
          omega
        rw [ih (combos * cs) h1]
        have harr : combos * cs * cs ^ n = combos * cs ^ (n + 1) := by
          rw [pow_succ]; ring
        rw [harr]

/-- C3 counterexample: with two any-many stars and total length 1 below the
fixed length 2 of the literal "ab", calculate_pattern_combinations returns the
value 0 (the early length check precedes the star-count split), not "no value"
as the claim states for star_count at least 2. -/
theorem c3_counterexample :
    calculate_pattern_combinations [anyManySeg, anyManySeg, ['a', 'b']] 2 1 = some 0 ∧
    2 ≤ numStars [anyManySeg, anyManySeg, ['a', 'b']] := by
  refine ⟨by decide, by decide⟩

/-- C3 (amended): for a non-empty charset of size cs and a concrete total
length L, calculate_pattern_combinations returns 0 whenever L is below
fixed_length (whatever the star count); with no any-many star it returns 1
when L equals fixed_length and there is no any-one, cs^q when L equals
fixed_length with q any-one segments, and 0 otherwise; with exactly one star
it returns cs^(q + (L - fixed_length)) for L at least fixed_length; and it
returns no value when there are two or more stars and L is at least
fixed_length, or when the 64-bit multiplication would overflow. -/
theorem c3_amended (segments : List (List Char)) (cs L : Nat) (hcs : 0 < cs) :
    (L < fixedLengthOf segments →
      calculate_pattern_combinations segments cs L = some 0) ∧
    (numStars segments = 0 →
      (L = fixedLengthOf segments → numQmarks segments = 0 →
        calculate_pattern_combinations segments cs L = some 1) ∧
      (L = fixedLengthOf segments → cs ^ numQmarks segments ≤ U64MAX →
        calculate_pattern_combinations segments cs L = some (cs ^ numQmarks segments)) ∧
      (L ≠ fixedLengthOf segments →
        calculate_pattern_combinations segments cs L = some 0)) ∧
    (numStars segments = 1 → fixedLengthOf segments ≤ L →
      cs ^ (numQmarks segments + (L - fixedLengthOf segments)) ≤ U64MAX →
      calculate_pattern_combinations segments cs L =
        some (cs ^ (numQmarks segments + (L - fixedLengthOf segments)))) ∧
    (2 ≤ numStars segments → fixedLengthOf segments ≤ L →
      calculate_pattern_combinations segments cs L = none) ∧
    (numStars segments ≤ 1 → fixedLengthOf segments ≤ L →
      ¬(numStars segments = 0 ∧ L ≠ fixedLengthOf segments) →
      U64MAX < cs ^ (numQmarks segments + (L - fixedLengthOf segments)) →
      calculate_pattern_combinations segments cs L = none) := by
  have hone : (1 : Nat) ≤ U64MAX := by norm_num [U64MAX]
  have hmul : ∀ n, mulLoop cs 1 n = if cs ^ n ≤ U64MAX then some (cs ^ n) else none := by
    intro n
    rw [mulLoop_eq cs hcs n 1 hone]
    simp
  refine ⟨?_, ?_, ?_, ?_, ?_⟩
  · intro hlt
    rw [calculate_pattern_combinations, if_neg (by omega), if_pos hlt]
  · intro h0
    refine ⟨?_, ?_, ?_⟩
    · intro hLf hq
      rw [calculate_pattern_combinations, if_neg (by omega), if_neg (by omega),
        if_pos h0, if_neg (by omega), if_pos hq]
    · intro hLf hfit
      rw [calculate_pattern_combinations, if_neg (by omega), if_neg (by omega),
        if_pos h0, if_neg (by omega)]
      by_cases hq : numQmarks segments = 0
      · rw [if_pos hq, hq, pow_zero]
      · rw [if_neg hq, hmul, if_pos hfit]
    · intro hLf
      rw [calculate_pattern_combinations, if_neg (by omega)]
      by_cases hlt : L < fixedLengthOf segments
      · rw [if_pos hlt]
      · rw [if_neg hlt, if_pos h0, if_pos hLf]
  · intro h1 hle hfit
    rw [calculate_pattern_combinations, if_neg (by omega), if_neg (by omega),
      if_neg (by omega), if_pos h1]
    by_cases hW : numQmarks segments + (L - fixedLengthOf segments) = 0
    · rw [if_pos hW, hW, pow_zero]
    · rw [if_neg hW, hmul, if_pos hfit]
  · intro h2 hle
    rw [calculate_pattern_combinations, if_neg (by omega), if_neg (by omega),
      if_neg (by omega), if_neg (by omega)]
  · intro hle1 hle2 hnot hovf
    rw [calculate_pattern_combinations, if_neg (by omega), if_neg (by omega)]
    rcases Nat.lt_or_ge (numStars segments) 1 with h | h
    · have h0 : numStars segments = 0 := by omega
      have hLf : L = fixedLengthOf segments := by
        by_contra hne
        exact hnot ⟨h0, hne⟩
      rw [if_pos h0, if_neg (by omega)]
      have hovf2 : U64MAX < cs ^ numQmarks segments := by
        rw [hLf] at hovf
        simpa using hovf
      have hq : ¬ numQmarks segments = 0 := by
        intro hq0
        rw [hq0, pow_zero] at hovf2
        omega
      rw [if_neg hq, hmul, if_neg (by omega)]
    · have h1 : numStars segments = 1 := by omega
      rw [if_neg (by omega), if_pos h1]
      have hW : ¬ numQmarks segments + (L - fixedLengthOf segments) = 0 := by
        intro hW0
        rw [hW0, pow_zero] at hovf
        omega
      rw [if_neg hW, hmul, if_neg (by omega)]

/-- Witness for c3_amended at a concrete single-star pattern over a
two-character charset. -/
theorem c3_amended_witness :
    ((5 : Nat) < fixedLengthOf [['p'], anyOneSeg, anyManySeg] →
      calculate_pattern_combinations [['p'], anyOneSeg, anyManySeg] 2 5 = some 0) ∧
    (numStars [['p'], anyOneSeg, anyManySeg] = 0 →
      ((5 : Nat) = fixedLengthOf [['p'], anyOneSeg, anyManySeg] →
        numQmarks [['p'], anyOneSeg, anyManySeg] = 0 →
        calculate_pattern_combinations [['p'], anyOneSeg, anyManySeg] 2 5 = some 1) ∧
      ((5 : Nat) = fixedLengthOf [['p'], anyOneSeg, anyManySeg] →
        2 ^ numQmarks [['p'], anyOneSeg, anyManySeg] ≤ U64MAX →
        calculate_pattern_combinations [['p'], anyOneSeg, anyManySeg] 2 5 =
          some (2 ^ numQmarks [['p'], anyOneSeg, anyManySeg])) ∧
      ((5 : Nat) ≠ fixedLengthOf [['p'], anyOneSeg, anyManySeg] →
        calculate_pattern_combinations [['p'], anyOneSeg, anyManySeg] 2 5 = some 0)) ∧
    (numStars [['p'], anyOneSeg, anyManySeg] = 1 →
      fixedLengthOf [['p'], anyOneSeg, anyManySeg] ≤ 5 →
      2 ^ (numQmarks [['p'], anyOneSeg, anyManySeg] +
        (5 - fixedLengthOf [['p'], anyOneSeg, anyManySeg])) ≤ U64MAX →
      calculate_pattern_combinations [['p'], anyOneSeg, anyManySeg] 2 5 =
        some (2 ^ (numQmarks [['p'], anyOneSeg, anyManySeg] +
          (5 - fixedLengthOf [['p'], anyOneSeg, anyManySeg])))) ∧
    (2 ≤ numStars [['p'], anyOneSeg, anyManySeg] →
      fixedLengthOf [['p'], anyOneSeg, anyManySeg] ≤ 5 →
      calculate_pattern_combinations [['p'], anyOneSeg, anyManySeg] 2 5 = none) ∧
    (numStars [['p'], anyOneSeg, anyManySeg] ≤ 1 →
      fixedLengthOf [['p'], anyOneSeg, anyManySeg] ≤ 5 →
      ¬(numStars [['p'], anyOneSeg, anyManySeg] = 0 ∧
        (5 : Nat) ≠ fixedLengthOf [['p'], anyOneSeg, anyManySeg]) →
      U64MAX < 2 ^ (numQmarks [['p'], anyOneSeg, anyManySeg] +
        (5 - fixedLengthOf [['p'], anyOneSeg, anyManySeg])) →
      calculate_pattern_combinations [['p'], anyOneSeg, anyManySeg] 2 5 = none) :=
  c3_amended [['p'], anyOneSeg, anyManySeg] 2 5 (by decide)

/-- The cumulative-offset loop of getPatternPasswordByIndex (part_000 lines
368-388): adds up the window sizes of wildcard lengths 1..W-1 with the same
overflow guards as the main enumeration loop.  offset and power carry the
C++ locals, len the loop counter, fuel the remaining iterations. -/
def patternOffsetLoop (cs : Nat) : Nat → Nat → Nat → Nat → Option Nat
  | offset, _, _, 0 => some offset
  | offset, power, len, fuel + 1 =>
      if len = 1 then
        if U64MAX - cs < offset then none
        else patternOffsetLoop cs (offset + cs) cs (len + 1) fuel
      else
        if U64MAX / cs < power then none
        else
          let combos := power * cs
          if U64MAX - combos < offset then none
          else patternOffsetLoop cs (offset + combos) combos (len + 1) fuel

/-- The weaving loop of getPatternPasswordByIndex (part_000 lines 409-442):
walks the segments, consuming one wildcard character per any-one, star_len
consecutive wildcard characters for an any-many, and copying literals; none
models the assembly-mismatch error returns. -/
def weaveLoop (wildcard : List Char) (starLen : Nat) :
    List (List Char) → Nat → List Char → Option (List Char)
  | [], _, acc => some acc
  | seg :: rest, widx, acc =>
      if seg = anyOneSeg then
        if widx < wildcard.length then
          weaveLoop wildcard starLen rest (widx + 1) (acc ++ [wildcard.getD widx 'a'])
        else none
      else if seg = anyManySeg then
        if widx + starLen ≤ wildcard.length then
          weaveLoop wildcard starLen rest (widx + starLen) (acc ++ (wildcard.drop widx).take starLen)
        else none
      else weaveLoop wildcard starLen rest widx (acc ++ seg)

/-- The star_len computed by getPatternPasswordByIndex (part_000 lines
351-361): the length the single any-many expands to at total length L, zero
when the pattern has no star. -/
def starLenOf (segments : List (List Char)) (L : Nat) : Nat :=
  if 0 < numStars segments then L - fixedLengthOf segments else 0

/-- The total_wildcard_chars of getPatternPasswordByIndex (part_000 line 362). -/
def wildcardCountOf (segments : List (List Char)) (L : Nat) : Nat :=
  numQmarks segments + starLenOf segments L

/-- The wildcard-fill computation of getPatternPasswordByIndex (part_000 lines
365-406): the base-B1 enumeration of the W wildcard characters at local index
index, via the cumulative offset of wildcard lengths below W. -/
def wildcardFill (index : Nat) (charset : List Char) (W : Nat) : Option (List Char) :=
  if W = 0 then some []
  else
    match patternOffsetLoop charset.length 0 1 1 (W - 1) with
    | none => none
    | some offset =>
        if U64MAX - index < offset then none
        else
          match getPasswordByIndex (offset + index) charset W with
          | none => none
          | some wc => if wc.length = W then some wc else none

/-- getPatternPasswordByIndex (part_000 lines 325-449): the index-th password
of total length L matching the pattern, for a specific length.  none models a
false return. -/
def getPatternPasswordByIndex (index : Nat) (segments : List (List Char))
    (charset : List Char) (L : Nat) : Option (List Char) :=
  if charset.length = 0 then none
  else if L < fixedLengthOf segments then none
  else if numStars segments = 0 ∧ L ≠ fixedLengthOf segments then none
  else
    match wildcardFill index charset (wildcardCountOf segments L) with
    | none => none
    | some wildcard =>
        match weaveLoop wildcard (starLenOf segments L) segments 0 [] with
        | none => none
        | some out => if out.length = L then some out else none

/-- A string matches a pattern at star expansion starLen: literal segments
appear verbatim in order, each any-one contributes exactly one charset
character, and each any-many contributes exactly starLen consecutive charset
characters.  (This phrases the regex reading of section 4.3 of the spec.) -/
inductive MatchesPattern (charset : List Char) (starLen : Nat) :
    List (List Char) → List Char → Prop
  | nil : MatchesPattern charset starLen [] []
  | anyOne {c segs rest} : c ∈ charset → MatchesPattern charset starLen segs rest →
      MatchesPattern charset starLen (anyOneSeg :: segs) (c :: rest)
  | anyMany {w segs rest} : w.length = starLen → (∀ c ∈ w, c ∈ charset) →
      MatchesPattern charset starLen segs rest →
      MatchesPattern charset starLen (anyManySeg :: segs) (w ++ rest)
  | lit {seg segs rest} : seg ≠ anyOneSeg → seg ≠ anyManySeg →
      MatchesPattern charset starLen segs rest →
      MatchesPattern charset starLen (seg :: segs) (seg ++ rest)

/-- The weave loop succeeds whenever the wildcard string is long enough, and
produces (appended to the accumulator) a string of the pattern shape. -/
theorem weaveLoop_spec (wildcard : List Char) (starLen : Nat) (charset : List Char)
    (hw : ∀ c ∈ wildcard, c ∈ charset) :
    ∀ segs widx acc,
      widx + numQmarks segs + numStars segs * starLen ≤ wildcard.length →
      ∃ out, weaveLoop wildcard starLen segs widx acc = some (acc ++ out) ∧
        out.length = fixedLengthOf segs + numStars segs * starLen ∧
        MatchesPattern charset starLen segs out := by
  intro segs
  induction segs with
  | nil =>
      intro widx acc _
      exact ⟨[], by simp [weaveLoop], by simp [fixedLengthOf, numStars],
        MatchesPattern.nil⟩
  | cons seg rest ih =>
      intro widx acc harith
      by_cases h1 : seg = anyOneSeg
      · subst h1
        have hq : numQmarks (anyOneSeg :: rest) = 1 + numQmarks rest := by
          simp [numQmarks]
        have hs : numStars (anyOneSeg :: rest) = numStars rest := by
          simp [numStars, anyOneSeg, anyManySeg]
        have hf : fixedLengthOf (anyOneSeg :: rest) = 1 + fixedLengthOf rest := by
          simp [fixedLengthOf, anyOneSeg, anyManySeg]
        have hwidx : widx < wildcard.length := by
          rw [hq, hs] at harith
          omega
        obtain ⟨out, hout, hlen, hm⟩ :=
          ih (widx + 1) (acc ++ [wildcard.getD widx 'a']) (by rw [hq, hs] at harith; omega)
        refine ⟨wildcard.getD widx 'a' :: out, ?_, ?_, ?_⟩
        · rw [weaveLoop, if_pos rfl, if_pos hwidx, hout]
          simp
        · rw [hf, hs]
          simp [hlen]
          omega
        · refine MatchesPattern.anyOne ?_ hm
          rw [List.getD_eq_getElem _ _ hwidx]
          exact hw _ (List.getElem_mem hwidx)
      · by_cases h2 : seg = anyManySeg
        · subst h2
          have hq : numQmarks (anyManySeg :: rest) = numQmarks rest := by
            simp [numQmarks, anyOneSeg, anyManySeg]
          have hs : numStars (anyManySeg :: rest) = 1 + numStars rest := by
            simp [numStars]
          have hf : fixedLengthOf (anyManySeg :: rest) = fixedLengthOf rest := by
            simp [fixedLengthOf, anyOneSeg, anyManySeg]
          have hwidx : widx + starLen ≤ wildcard.length := by
            rw [hq, hs] at harith
            have : (1 + numStars rest) * starLen = starLen + numStars rest * starLen := by ring
            omega
          obtain ⟨out, hout, hlen, hm⟩ :=
            ih (widx + starLen) (acc ++ (wildcard.drop widx).take starLen) (by
              rw [hq, hs] at harith
              have : (1 + numStars rest) * starLen = starLen + numStars rest * starLen := by ring
              omega)
          have hslice : ((wildcard.drop widx).take starLen).length = starLen := by
            rw [List.length_take, List.length_drop]
            omega
          refine ⟨(wildcard.drop widx).take starLen ++ out, ?_, ?_, ?_⟩
          · rw [weaveLoop, if_neg (by decide), if_pos rfl, if_pos hwidx, hout]
            simp
          · rw [hf, hs]
            simp [hlen, hslice]
            ring
          · refine MatchesPattern.anyMany hslice ?_ hm
            intro c hc
            exact hw c (List.mem_of_mem_drop (List.mem_of_mem_take hc))
        · have hq : numQmarks (seg :: rest) = numQmarks rest := by
            simp [numQmarks, h1]
          have hs : numStars (seg :: rest) = numStars rest := by
            simp [numStars, h2]
          have hf : fixedLengthOf (seg :: rest) = seg.length + fixedLengthOf rest := by
            simp [fixedLengthOf, h1, h2]
          obtain ⟨out, hout, hlen, hm⟩ :=
            ih widx (acc ++ seg) (by rw [hq, hs] at harith; omega)
          refine ⟨seg ++ out, ?_, ?_, ?_⟩
          · rw [weaveLoop, if_neg h1, if_neg h2, hout]
            simp
          · rw [hf, hs]
            simp [hlen]
            omega
          · exact MatchesPattern.lit h1 h2 hm

/-- The cumulative-offset loop produces exactly the sum of the wildcard window
sizes, provided that sum fits in 64 bits. -/
theorem patternOffsetLoop_spec (cs : Nat) (hcs : 0 < cs) :
    ∀ fuel len0, 1 ≤ len0 → sumPow cs 1 (len0 - 1 + fuel) ≤ U64MAX →
      patternOffsetLoop cs (sumPow cs 1 (len0 - 1)) (cs ^ (len0 - 1)) len0 fuel =
        some (sumPow cs 1 (len0 - 1 + fuel)) := by
  intro fuel
  induction fuel with
  | zero => intro len0 h1 _; rw [patternOffsetLoop]; norm_num
  | succ fuel ih =>
      intro len0 h1 hfit
      have hfit' : sumPow cs 1 len0 ≤ U64MAX :=
        le_trans (sumPow_le_sumPow cs 1 (by omega)) hfit
      have hstep : sumPow cs 1 len0 = sumPow cs 1 (len0 - 1) + cs ^ len0 :=
        sumPow_one_eq cs h1
      have hnext := ih (len0 + 1) (by omega)
      have hred : len0 + 1 - 1 = len0 := by omega
      rw [hred] at hnext
      have hnext' := hnext (by
        have h : len0 + (fuel : Nat) = len0 - 1 + (fuel + 1) := by omega
        rw [h]
        exact hfit)
      have hidx : len0 - 1 + (fuel + 1) = len0 + fuel := by omega
      rw [hidx]
      by_cases h1' : len0 = 1
      · subst h1'
        rw [patternOffsetLoop, if_pos rfl]
        have h0s : sumPow cs 1 (1 - 1) = 0 := by norm_num [sumPow]
        have h1s : sumPow cs 1 1 = cs := by simp [sumPow]
        rw [if_neg (by rw [h0s]; omega), h0s]
        rw [h1s, pow_one] at hnext'
        simpa using hnext'
      · rw [patternOffsetLoop, if_neg h1']
        have hpow1 : cs ^ (len0 - 1) * cs = cs ^ len0 := by
          rw [← pow_succ]; congr 1; omega
        have hpfit : cs ^ len0 ≤ U64MAX :=
          le_trans (pow_le_sumPow cs (by omega) le_rfl) hfit'
        have hg1 : ¬ (U64MAX / cs < cs ^ (len0 - 1)) := by
          push_neg
          rw [Nat.le_div_iff_mul_le hcs, hpow1]
          exact hpfit
        rw [if_neg hg1]
        simp only [hpow1]
        rw [if_neg (by omega)]
        rw [hstep] at hnext'
        exact hnext'

theorem sumPow_mono_base {C C' : Nat} (h : C ≤ C') :
    ∀ n s, sumPow C s n ≤ sumPow C' s n := by
  intro n
  induction n with
  | zero => intro s; exact le_rfl
  | succ n ih =>
      intro s
      rw [sumPow, sumPow]
      exact Nat.add_le_add (Nat.pow_le_pow_left h s) (ih (s + 1))

theorem sumPow_base_one : ∀ n s, 1 ≤ s → sumPow 1 s n = n := by
  intro n
  induction n with
  | zero => intro s _; rfl
  | succ n ih =>
      intro s hs
      rw [sumPow, one_pow, ih (s + 1) (by omega)]
      omega

/-- The largest base whose W-th power fits in 64 bits, for W in 1..63. -/
def maxBaseTable : List Nat :=
  [18446744073709551615, 4294967295, 2642245, 65535, 7131, 1625, 565, 255, 138,
   84, 56, 40, 30, 23, 19, 15, 13, 11, 10, 9, 8, 7, 6, 6, 5, 5, 5, 4, 4, 4, 4,
   3, 3, 3, 3, 3, 3, 3, 3, 3, 2, 2, 2, 2, 2, 2, 2, 2, 2, 2, 2, 2, 2, 2, 2, 2,
   2, 2, 2, 2, 2, 2, 2]

/-- Table lookup for the boundary bases. -/
def maxBase (W : Nat) : Nat := maxBaseTable.getD (W - 1) 1

theorem maxBase_fact : ∀ W, W < 64 → 1 ≤ W →
    U64MAX < (maxBase W + 1) ^ W ∧ sumPow (maxBase W) 1 W ≤ U64MAX + 1 := by
  decide

/-- A number-theoretic fact about 2^64: whenever C^W fits in 64 bits, the full
cumulative sum C + C^2 + ... + C^W is at most 2^64, so the enumeration offsets
never overflow.  (Verified through the boundary table maxBaseTable.) -/
theorem sum_pow_fits {C W : Nat} (hC : 2 ≤ C) (hW : 1 ≤ W) (hCW : C ^ W ≤ U64MAX) :
    sumPow C 1 W ≤ U64MAX + 1 := by
  have hW64 : W < 64 := by
    by_contra h
    push_neg at h
    have h1 : 2 ^ 64 ≤ 2 ^ W := Nat.pow_le_pow_right (by norm_num) h
    have h2 : 2 ^ W ≤ C ^ W := Nat.pow_le_pow_left hC W
    have h3 : (2 : Nat) ^ 64 = U64MAX + 1 := by norm_num [U64MAX]
    omega
  obtain ⟨hgt, hsum⟩ := maxBase_fact W hW64 hW
  have hle : C ≤ maxBase W := by
    by_contra h
    push_neg at h
    have : (maxBase W + 1) ^ W ≤ C ^ W := Nat.pow_le_pow_left (by omega) W
    omega
  exact le_trans (sumPow_mono_base hle W 1) hsum

/-- The wildcard-fill step returns exactly the base-C digit string of the local
index, when the index is in range and the cumulative sums fit in 64 bits. -/
theorem wildcardFill_spec (charset : List Char) (hcs : 0 < charset.length) (W j : Nat)
    (hW : 1 ≤ W) (hj : j < charset.length ^ W)
    (hpow : charset.length ^ W ≤ U64MAX)
    (hsum : sumPow charset.length 1 W ≤ U64MAX + 1) :
    wildcardFill j charset W = some (passwordDigits charset j W) := by
  have hstep : sumPow charset.length 1 W =
      sumPow charset.length 1 (W - 1) + charset.length ^ W :=
    sumPow_one_eq charset.length hW
  have hpow1 : 1 ≤ charset.length ^ W := Nat.one_le_pow _ _ hcs
  have hofffit : sumPow charset.length 1 (W - 1) ≤ U64MAX := by omega
  have hoff := patternOffsetLoop_spec charset.length hcs (W - 1) 1 le_rfl
    (by norm_num; exact hofffit)
  norm_num at hoff
  have h00 : sumPow charset.length 1 0 = 0 := rfl
  rw [h00] at hoff
  rw [wildcardFill, if_neg (by omega), hoff]
  have hguard : ¬ (U64MAX - j < sumPow charset.length 1 (W - 1)) := by
    omega
  dsimp only
  rw [if_neg hguard]
  have hgp : getPasswordByIndex (sumPow charset.length 1 (W - 1) + j) charset W =
      some (passwordDigits charset j W) :=
    getPasswordByIndex_spec charset hcs hW le_rfl hj hpow
  rw [hgp]
  dsimp only
  rw [passwordDigits_length, if_pos rfl]

/-- C2: for every pattern with at most one any-many star, every non-empty
charset, every total length L and every local index j strictly below the
per-length count computed by calculate_pattern_combinations,
getPatternPasswordByIndex returns a string of length exactly L that matches the
pattern: any-one segments each contribute one charset character, the single
any-many (if present) contributes exactly L - fixed_length consecutive charset
characters, and literal segments are emitted verbatim in segment order.
(The two side conditions are the C++ int domain of the num_qmarks counter and
of total_length, each an int and hence below 2^31.) -/
theorem c2_pattern_password (segments : List (List Char)) (charset : List Char)
    (L N j : Nat) (hne : charset ≠ [])
    (hN : calculate_pattern_combinations segments charset.length L = some N)
    (hj : j < N)
    (hq31 : numQmarks segments < 2 ^ 31) (hL31 : L < 2 ^ 31) :
    ∃ out, getPatternPasswordByIndex j segments charset L = some out ∧
      out.length = L ∧
      MatchesPattern charset (starLenOf segments L) segments out := by
  have hcs : 0 < charset.length := List.length_pos.mpr hne
  obtain ⟨hc1, hc2, hc3, hc4, hc5⟩ :=
    c3_amended segments charset.length L hcs
  -- the length is not below the fixed length
  have hLge : fixedLengthOf segments ≤ L := by
    by_contra h
    push_neg at h
    rw [hc1 h] at hN
    injection hN with hN0
    omega
  -- at most one star
  have hstars : numStars segments ≤ 1 := by
    by_contra h
    push_neg at h
    rw [hc4 h hLge] at hN
    exact Option.noConfusion hN
  -- a star-free pattern forces L = fixed_length
  have hLfix : numStars segments = 0 → L = fixedLengthOf segments := by
    intro h0
    by_contra hne'
    rw [(hc2 h0).2.2 hne'] at hN
    injection hN with hN0
    omega
  -- the wildcard count
  have hWdef : wildcardCountOf segments L =
      numQmarks segments + starLenOf segments L := rfl
  have hslen : numStars segments * starLenOf segments L =
      starLenOf segments L := by
    rcases Nat.eq_or_lt_of_le hstars with h1 | h0
    · rw [h1, one_mul]
    · have h0' : numStars segments = 0 := by omega
      simp [h0', starLenOf]
  have houtlen : fixedLengthOf segments + starLenOf segments L = L := by
    rcases Nat.lt_or_ge 0 (numStars segments) with hpos | hzero
    · rw [starLenOf, if_pos hpos]
      omega
    · have h0 : numStars segments = 0 := by omega
      rw [starLenOf, if_neg (by omega), hLfix h0]
      omega
  by_cases hW0 : wildcardCountOf segments L = 0
  · -- no wildcard characters at all: N = 1 and the password is the literals
    have hwild : wildcardFill j charset (wildcardCountOf segments L) = some [] := by
      rw [wildcardFill, if_pos hW0]
    have hq0 : numQmarks segments = 0 := by
      rw [wildcardCountOf] at hW0
      omega
    obtain ⟨out, hwv, hlen, hm⟩ :=
      weaveLoop_spec [] (starLenOf segments L) charset (by simp) segments 0 []
        (by simp [hq0, hslen]; rw [wildcardCountOf, hq0] at hW0; omega)
    refine ⟨out, ?_, ?_, hm⟩
    · rw [getPatternPasswordByIndex, if_neg (by omega), if_neg (by omega),
        if_neg (by rintro ⟨h0, hne'⟩; exact hne' (hLfix h0)), hwild]
      dsimp only
      rw [List.nil_append] at hwv
      rw [hwv]
      dsimp only
      rw [if_pos (by rw [hlen, hslen]; exact houtlen)]
    · rw [hlen, hslen]
      exact houtlen
  · -- at least one wildcard character: N = cs ^ W
    have hW1 : 1 ≤ wildcardCountOf segments L := by omega
    have hNval : N = charset.length ^ wildcardCountOf segments L ∧
        charset.length ^ wildcardCountOf segments L ≤ U64MAX := by
      by_cases hfit : charset.length ^ wildcardCountOf segments L ≤ U64MAX
      · refine ⟨?_, hfit⟩
        rcases Nat.eq_or_lt_of_le hstars with h1 | h0
        · have := hc3 h1 hLge (by
            rw [wildcardCountOf, starLenOf, if_pos (by omega)] at hfit
            exact hfit)
          rw [this] at hN
          injection hN with hv
          rw [← hv, wildcardCountOf, starLenOf, if_pos (by omega)]
        · have h0' : numStars segments = 0 := by omega
          have hLf := hLfix h0'
          have := (hc2 h0').2.1 hLf (by
            rw [wildcardCountOf, starLenOf, if_neg (by omega)] at hfit
            simpa using hfit)
          rw [this] at hN
          injection hN with hv
          rw [← hv, wildcardCountOf, starLenOf, if_neg (by omega)]
          simp
      · exfalso
        push_neg at hfit
        have := hc5 hstars hLge
          (by rintro ⟨h0, hne'⟩; exact hne' (hLfix h0))
          (by
            rw [wildcardCountOf] at hfit
            rcases Nat.lt_or_ge 0 (numStars segments) with hpos | hzero
            · rwa [starLenOf, if_pos hpos] at hfit
            · have h0 : numStars segments = 0 := by omega
              rw [starLenOf, if_neg (by omega)] at hfit
              rw [hLfix h0]
              simpa using hfit)
        rw [this] at hN
        exact Option.noConfusion hN
    obtain ⟨hNv, hfitpow⟩ := hNval
    have hjW : j < charset.length ^ wildcardCountOf segments L := by omega
    have hsumfit : sumPow charset.length 1 (wildcardCountOf segments L) ≤ U64MAX + 1 := by
      rcases Nat.lt_or_ge charset.length 2 with h1 | h2
      · have hcs1 : charset.length = 1 := by omega
        rw [hcs1, sumPow_base_one _ 1 le_rfl]
        have hWle : wildcardCountOf segments L ≤ numQmarks segments + L := by
          rw [wildcardCountOf, starLenOf]
          split <;> omega
        have h31 : (2 : Nat) ^ 31 = 2147483648 := by norm_num
        have hU : U64MAX = 18446744073709551615 := rfl
        omega
      · exact sum_pow_fits h2 hW1 hfitpow
    have hwild := wildcardFill_spec charset hcs _ j hW1 hjW hfitpow hsumfit
    have hwlen : (passwordDigits charset j (wildcardCountOf segments L)).length =
        wildcardCountOf segments L := passwordDigits_length charset _ _
    obtain ⟨out, hwv, hlen, hm⟩ :=
      weaveLoop_spec (passwordDigits charset j (wildcardCountOf segments L))
        (starLenOf segments L) charset
        (fun c hc => passwordDigits_mem charset hne _ j c hc) segments 0 []
        (by rw [hwlen, hWdef, hslen]; omega)
    refine ⟨out, ?_, ?_, hm⟩
    · rw [getPatternPasswordByIndex, if_neg (by omega), if_neg (by omega),
        if_neg (by rintro ⟨h0, hne'⟩; exact hne' (hLfix h0)), hwild]
      dsimp only
      rw [List.nil_append] at hwv
      rw [hwv]
      dsimp only
      rw [if_pos (by rw [hlen, hslen]; exact houtlen)]
    · rw [hlen, hslen]
      exact houtlen

/-- Witness for c2_pattern_password at the pattern a*b over charset "xy" with
total length 4 and local index 2. -/
theorem c2_pattern_password_witness :
    ∃ out, getPatternPasswordByIndex 2 [['a'], anyManySeg, ['b']] ['x', 'y'] 4 = some out ∧
      out.length = 4 ∧
      MatchesPattern ['x', 'y'] (starLenOf [['a'], anyManySeg, ['b']] 4)
        [['a'], anyManySeg, ['b']] out :=
  c2_pattern_password [['a'], anyManySeg, ['b']] ['x', 'y'] 4 4 2
    (by decide) (by decide) (by decide) (by decide) (by decide)

/-- FNV-1a 64-bit hash (bloom_filter.h lines 12-20) over a byte sequence:
xor each byte into the state, multiply by the FNV prime, modulo 2^64. -/
def fnv1a_hash (bytes : List Nat) : Nat :=
  bytes.foldl (fun h b => ((h ^^^ b) * 1099511628211) % TWO64) 14695981039346656037

/-- The eight little-endian bytes of a 64-bit value, as read from memory by
fnv1a_hash(&h1, sizeof(h1)) on a little-endian machine. -/
def bytesOfU64LE (x : Nat) : List Nat :=
  [x % 256, x / 256 % 256, x / 256 ^ 2 % 256, x / 256 ^ 3 % 256,
   x / 256 ^ 4 % 256, x / 256 ^ 5 % 256, x / 256 ^ 6 % 256, x / 256 ^ 7 % 256]

/-- BloomFilter::generate_hashes (bloom_filter.cpp lines 51-61): double
hashing, position i is (h1 + i * h2) mod m (the addition and multiplication
in 64-bit arithmetic). -/
def generate_hashes (m k : Nat) (item : List Nat) : List Nat :=
  let h1 := fnv1a_hash item
  let h2 := fnv1a_hash (bytesOfU64LE h1)
  (List.range k).map (fun i => ((h1 + i * h2) % TWO64) % m)

/-- The BloomFilter state (bloom_filter.h lines 24-58).  m_fp_rate holds the
64-bit pattern of the stored double: serialization and deserialization copy
those eight bytes verbatim and never interpret them arithmetically. -/
structure BloomFilter where
  m_num_bits : Nat
  m_num_hashes : Nat
  m_estimated_items : Nat
  m_fp_rate : Nat
  m_bits : List Bool
  deriving DecidableEq

/-- BloomFilter::isValid (bloom_filter.h line 47). -/
def BloomFilter.isValid (bf : BloomFilter) : Bool :=
  !bf.m_bits.isEmpty && bf.m_num_hashes > 0

/-- BloomFilter::insert (bloom_filter.cpp lines 63-70): no-op on an invalid
filter, otherwise sets every one of the k hashed bit positions. -/
def BloomFilter.insert (bf : BloomFilter) (item : List Nat) : BloomFilter :=
  if bf.isValid then
    { bf with
      m_bits := (generate_hashes bf.m_num_bits bf.m_num_hashes item).foldl
        (fun bits h => bits.set h true) bf.m_bits }
  else bf

/-- BloomFilter::contains (bloom_filter.cpp lines 72-82): false on an invalid
filter, otherwise true iff every one of the k hashed bit positions is set. -/
def BloomFilter.contains (bf : BloomFilter) (item : List Nat) : Bool :=
  if bf.isValid then
    (generate_hashes bf.m_num_bits bf.m_num_hashes item).all
      (fun h => bf.m_bits.getD h false)
  else false

theorem length_foldl_set (ps : List Nat) :
    ∀ bits : List Bool, (ps.foldl (fun b p => b.set p true) bits).length = bits.length := by
  induction ps with
  | nil => intro bits; rfl
  | cons p rest ih =>
      intro bits
      rw [List.foldl_cons, ih, List.length_set]

theorem getD_set_true (bits : List Bool) (p q : Nat) (h : bits.getD p false = true) :
    (bits.set q true).getD p false = true := by
  rcases Nat.lt_or_ge p bits.length with hp | hp
  · rw [List.getD_eq_getElem _ _ (by rw [List.length_set]; exact hp)]
    rw [List.getD_eq_getElem _ _ hp] at h
    rw [List.getElem_set]
    split
    · rfl
    · exact h
  · rw [List.getD_eq_default _ _ hp] at h
    exact absurd h (by simp)

theorem getD_foldl_set_preserve (p : Nat) (ps : List Nat) :
    ∀ bits : List Bool, bits.getD p false = true →
      (ps.foldl (fun b q => b.set q true) bits).getD p false = true := by
  induction ps with
  | nil => intro bits h; simpa using h
  | cons r rest ih =>
      intro bits h
      rw [List.foldl_cons]
      exact ih (bits.set r true) (getD_set_true bits p r h)

theorem getD_foldl_set (ps : List Nat) :
    ∀ bits : List Bool, ∀ p ∈ ps, p < bits.length →
      (ps.foldl (fun b q => b.set q true) bits).getD p false = true := by
  induction ps with
  | nil => intro bits p hp; simp at hp
  | cons q rest ih =>
      intro bits p hp hlt
      rw [List.foldl_cons]
      rcases List.mem_cons.mp hp with rfl | hmem
      · refine getD_foldl_set_preserve p rest (bits.set p true) ?_
        rw [List.getD_eq_getElem _ _ (by rw [List.length_set]; exact hlt)]
        rw [List.getElem_set]
        simp
      · exact ih (bits.set q true) p hmem (by rw [List.length_set]; exact hlt)

/-- C4: on a valid, well-formed filter state, insert followed by contains of
the same item returns true (no false negatives); insert sets all k positions
(h1 + i*h2) mod m, and contains returns true iff all k of those positions are
set, with both operations computing the hashes identically. -/
theorem c4_no_false_negative (bf : BloomFilter) (item : List Nat)
    (hwf : bf.m_bits.length = bf.m_num_bits) (hv : bf.isValid = true) :
    (bf.insert item).contains item = true ∧
    (∀ pos ∈ generate_hashes bf.m_num_bits bf.m_num_hashes item,
      (bf.insert item).m_bits.getD pos false = true) ∧
    (bf.contains item = true ↔
      ∀ pos ∈ generate_hashes bf.m_num_bits bf.m_num_hashes item,
        bf.m_bits.getD pos false = true) := by
  have hv' := hv
  rw [BloomFilter.isValid, Bool.and_eq_true] at hv'
  obtain ⟨hbe, hk⟩ := hv'
  have hm : 0 < bf.m_num_bits := by
    rw [← hwf]
    cases hb : bf.m_bits with
    | nil => rw [hb] at hbe; simp at hbe
    | cons a t => simp [hb]
  have hpos : ∀ pos ∈ generate_hashes bf.m_num_bits bf.m_num_hashes item,
      pos < bf.m_num_bits := by
    intro pos hp
    rw [generate_hashes] at hp
    simp only [List.mem_map] at hp
    obtain ⟨i, _, rfl⟩ := hp
    exact Nat.mod_lt _ hm
  have hins : bf.insert item =
      { bf with
        m_bits := (generate_hashes bf.m_num_bits bf.m_num_hashes item).foldl
          (fun bits h => bits.set h true) bf.m_bits } := by
    rw [BloomFilter.insert, if_pos hv]
  have hinslen : (bf.insert item).m_bits.length = bf.m_bits.length := by
    rw [hins]
    exact length_foldl_set _ bf.m_bits
  have hinsbits : ∀ pos ∈ generate_hashes bf.m_num_bits bf.m_num_hashes item,
      (bf.insert item).m_bits.getD pos false = true := by
    intro pos hp
    rw [hins]
    exact getD_foldl_set _ bf.m_bits pos hp (by rw [hwf]; exact hpos pos hp)
  have hinsvalid : (bf.insert item).isValid = true := by
    rw [BloomFilter.isValid, Bool.and_eq_true]
    constructor
    · have : (bf.insert item).m_bits.length ≠ 0 := by
        rw [hinslen, hwf]; omega
      cases hb : (bf.insert item).m_bits with
      | nil => rw [hb] at this; simp at this
      | cons a t => simp
    · rw [hins]
      simpa using hk
  have hinsm : (bf.insert item).m_num_bits = bf.m_num_bits := by rw [hins]
  have hinsk : (bf.insert item).m_num_hashes = bf.m_num_hashes := by rw [hins]
  refine ⟨?_, hinsbits, ?_⟩
  · rw [BloomFilter.contains, if_pos hinsvalid, hinsm, hinsk]
    rw [List.all_eq_true]
    intro pos hp
    exact hinsbits pos hp
  · rw [BloomFilter.contains, if_pos hv, List.all_eq_true]

/-- Witness for c4_no_false_negative at a concrete 8-bit, 2-hash filter and
the two-byte item "ab". -/
theorem c4_no_false_negative_witness :
    ((⟨8, 2, 5, 0, List.replicate 8 false⟩ : BloomFilter).insert [97, 98]).contains [97, 98] = true ∧
    (∀ pos ∈ generate_hashes 8 2 [97, 98],
      ((⟨8, 2, 5, 0, List.replicate 8 false⟩ : BloomFilter).insert [97, 98]).m_bits.getD pos false = true) ∧
    ((⟨8, 2, 5, 0, List.replicate 8 false⟩ : BloomFilter).contains [97, 98] = true ↔
      ∀ pos ∈ generate_hashes 8 2 [97, 98],
        (⟨8, 2, 5, 0, List.replicate 8 false⟩ : BloomFilter).m_bits.getD pos false = true) :=
  c4_no_false_negative ⟨8, 2, 5, 0, List.replicate 8 false⟩ [97, 98] (by decide) (by decide)

/-- C10: on a filter whose isValid() is false, contains returns false and
insert leaves the state entirely unchanged, so the public interface can
neither read from nor mutate an invalid filter. -/
theorem c10_invalid_filter_inert (bf : BloomFilter) (item : List Nat)
    (hv : bf.isValid = false) :
    bf.contains item = false ∧ bf.insert item = bf := by
  constructor
  · rw [BloomFilter.contains, hv]
    simp
  · rw [BloomFilter.insert, hv]
    simp

/-- Witness for c10_invalid_filter_inert at the default-constructed filter. -/
theorem c10_invalid_filter_inert_witness :
    (⟨0, 0, 0, 0, []⟩ : BloomFilter).contains [97] = false ∧
    (⟨0, 0, 0, 0, []⟩ : BloomFilter).insert [97] = ⟨0, 0, 0, 0, []⟩ :=
  c10_invalid_filter_inert ⟨0, 0, 0, 0, []⟩ [97] (by decide)

/-- The file magic 0xBF10F17E (bloom_filter.cpp line 5). -/
def BLOOM_FILTER_MAGIC : Nat := 3205559678

/-- The file format version (bloom_filter.cpp line 6). -/
def BLOOM_FILTER_VERSION : Nat := 1

/-- Little-endian encoding of a value into w bytes, as the raw ofs.write calls
emit on a little-endian machine. -/
def encLE : Nat → Nat → List Nat
  | 0, _ => []
  | w + 1, x => x % 256 :: encLE w (x / 256)

/-- Little-endian decoding of a byte list, as the raw ifs.read calls load. -/
def decLE : List Nat → Nat
  | [] => 0
  | b :: bs => b + 256 * decLE bs

/-- Reading n bytes from a stream: the bytes and the remainder, or none when
the stream is exhausted (a failed ifs.read). -/
def readBytes (n : Nat) (bs : List Nat) : Option (List Nat × List Nat) :=
  if n ≤ bs.length then some (bs.take n, bs.drop n) else none

/-- One byte of the packed bit vector (bloom_filter.cpp lines 101-107): the
loop ORs mask 1 << (i mod 8) into byte i / 8 for every set bit i, so byte j
collects bits 8j..8j+7 with bit t contributing 2^t. -/
def packByte (bits : List Bool) (j : Nat) : Nat :=
  (if bits.getD (8 * j) false then 1 else 0) |||
  (if bits.getD (8 * j + 1) false then 2 else 0) |||
  (if bits.getD (8 * j + 2) false then 4 else 0) |||
  (if bits.getD (8 * j + 3) false then 8 else 0) |||
  (if bits.getD (8 * j + 4) false then 16 else 0) |||
  (if bits.getD (8 * j + 5) false then 32 else 0) |||
  (if bits.getD (8 * j + 6) false then 64 else 0) |||
  (if bits.getD (8 * j + 7) false then 128 else 0)

/-- BloomFilter::serialize (bloom_filter.cpp lines 84-111) as the byte stream
it writes: magic, version, m, k, n, p little-endian, then the packed bits,
bit i at byte i/8 under mask 1 << (i mod 8).  none models the false return on
an invalid filter. -/
def BloomFilter.serialize (bf : BloomFilter) : Option (List Nat) :=
  if bf.isValid then
    some (encLE 4 BLOOM_FILTER_MAGIC ++ encLE 2 BLOOM_FILTER_VERSION ++
      encLE 8 bf.m_num_bits ++ encLE 4 bf.m_num_hashes ++
      encLE 8 bf.m_estimated_items ++ encLE 8 bf.m_fp_rate ++
      (List.range ((bf.m_num_bits + 7) / 8)).map (packByte bf.m_bits))
  else none

/-- BloomFilter::deserialize (bloom_filter.cpp lines 113-172) from a byte
stream: reject wrong magic, wrong version, zero m or k, short reads, or
trailing bytes; unpack bit i from byte i/8 shifted by i mod 8.  none models a
false return (filter treated as absent / invalidated). -/
def deserialize (file : List Nat) : Option BloomFilter :=
  match readBytes 4 file with
  | none => none
  | some (magicB, r1) =>
    if decLE magicB ≠ BLOOM_FILTER_MAGIC then none
    else
      match readBytes 2 r1 with
      | none => none
      | some (verB, r2) =>
        if decLE verB ≠ BLOOM_FILTER_VERSION then none
        else
          match readBytes 8 r2 with
          | none => none
          | some (mB, r3) =>
            match readBytes 4 r3 with
            | none => none
            | some (kB, r4) =>
              match readBytes 8 r4 with
              | none => none
              | some (nB, r5) =>
                match readBytes 8 r5 with
                | none => none
                | some (pB, r6) =>
                  if decLE mB = 0 ∨ decLE kB = 0 then none
                  else
                    match readBytes ((decLE mB + 7) / 8) r6 with
                    | none => none
                    | some (packed, r7) =>
                      if r7 ≠ [] then none
                      else
                        some ⟨decLE mB, decLE kB, decLE nB, decLE pB,
                          (List.range (decLE mB)).map
                            (fun i => (packed.getD (i / 8) 0 >>> (i % 8)) &&& 1 == 1)⟩

theorem encLE_length : ∀ w x, (encLE w x).length = w := by
  intro w
  induction w with
  | zero => intro x; rfl
  | succ w ih => intro x; rw [encLE, List.length_cons, ih]

theorem decLE_encLE : ∀ w x, x < 256 ^ w → decLE (encLE w x) = x := by
  intro w
  induction w with
  | zero =>
      intro x hx
      simp at hx
      simp [hx, encLE, decLE]
  | succ w ih =>
      intro x hx
      rw [encLE, decLE, ih (x / 256) (by
        rw [Nat.div_lt_iff_lt_mul (by norm_num)]
        calc x < 256 ^ (w + 1) := hx
          _ = 256 ^ w * 256 := by rw [pow_succ])]
      omega

theorem readBytes_append (n : Nat) (a b : List Nat) (h : a.length = n) :
    readBytes n (a ++ b) = some (a, b) := by
  subst h
  rw [readBytes, if_pos (by simp)]
  rw [List.take_left, List.drop_left]

theorem readBytes_exact (n : Nat) (a : List Nat) (h : a.length = n) :
    readBytes n a = some (a, []) := by
  subst h
  rw [readBytes, if_pos le_rfl]
  simp

theorem byteExtract : ∀ (t : Fin 8) (b0 b1 b2 b3 b4 b5 b6 b7 : Bool),
    (((if b0 then 1 else 0) ||| (if b1 then 2 else 0) ||| (if b2 then 4 else 0) |||
      (if b3 then 8 else 0) ||| (if b4 then 16 else 0) ||| (if b5 then 32 else 0) |||
      (if b6 then 64 else 0) ||| (if b7 then 128 else 0) : Nat) >>> t.1) &&& 1 =
    if [b0, b1, b2, b3, b4, b5, b6, b7].getD t.1 false then 1 else 0 := by
  decide

theorem packByte_extract (bits : List Bool) (j t : Nat) (ht : t < 8) :
    (packByte bits j >>> t) &&& 1 = if bits.getD (8 * j + t) false then 1 else 0 := by
  have h := byteExtract ⟨t, ht⟩ (bits.getD (8 * j) false) (bits.getD (8 * j + 1) false)
    (bits.getD (8 * j + 2) false) (bits.getD (8 * j + 3) false)
    (bits.getD (8 * j + 4) false) (bits.getD (8 * j + 5) false)
    (bits.getD (8 * j + 6) false) (bits.getD (8 * j + 7) false)
  rw [packByte, h]
  interval_cases t <;> simp

theorem unpack_pack (bits : List Bool) (i : Nat) (hi : i < bits.length) :
    (((((List.range ((bits.length + 7) / 8)).map (packByte bits)).getD (i / 8) 0) >>>
      (i % 8)) &&& 1 == 1) = bits.getD i false := by
  have hj : i / 8 < (bits.length + 7) / 8 := by omega
  have hmap : ((List.range ((bits.length + 7) / 8)).map (packByte bits)).getD (i / 8) 0 =
      packByte bits (i / 8) := by
    rw [List.getD_eq_getElem _ _ (by simpa using hj)]
    simp
  rw [hmap, packByte_extract bits (i / 8) (i % 8) (Nat.mod_lt _ (by norm_num))]
  have hid : 8 * (i / 8) + i % 8 = i := Nat.div_add_mod i 8
  rw [hid]
  cases hb : bits.getD i false <;> simp

theorem unpack_pack_list (bits : List Bool) :
    (List.range bits.length).map
      (fun i => ((((List.range ((bits.length + 7) / 8)).map (packByte bits)).getD (i / 8) 0) >>>
        (i % 8)) &&& 1 == 1) = bits := by
  apply List.ext_getElem
  · simp
  · intro i h1 h2
    simp only [List.getElem_map, List.getElem_range]
    rw [unpack_pack bits i (by simpa using h1)]
    rw [List.getD_eq_getElem _ _ (by simpa using h1)]

/-- C5: serializing a valid, well-formed filter and deserializing the
resulting byte stream into a fresh filter succeeds and reproduces exactly the
same bit vector and the same parameters m, k, n and p, through the
little-endian layout of magic, version, m, k, n, p and the packed bits. -/
theorem c5_serialize_roundtrip (bf : BloomFilter)
    (hwf : bf.m_bits.length = bf.m_num_bits)
    (hm : bf.m_num_bits < 256 ^ 8) (hk : bf.m_num_hashes < 256 ^ 4)
    (hn : bf.m_estimated_items < 256 ^ 8) (hp : bf.m_fp_rate < 256 ^ 8)
    (hv : bf.isValid = true) :
    ∃ file, bf.serialize = some file ∧ deserialize file = some bf := by
  have hv' := hv
  rw [BloomFilter.isValid, Bool.and_eq_true] at hv'
  obtain ⟨hbe, hkpos⟩ := hv'
  have hkpos' : 0 < bf.m_num_hashes := by simpa using hkpos
  have hmpos : 0 < bf.m_num_bits := by
    rw [← hwf]
    cases hb : bf.m_bits with
    | nil => rw [hb] at hbe; simp at hbe
    | cons a t => simp [hb]
  refine ⟨_, by rw [BloomFilter.serialize, if_pos hv], ?_⟩
  have hdm : decLE (encLE 8 bf.m_num_bits) = bf.m_num_bits := decLE_encLE 8 _ hm
  have hdk : decLE (encLE 4 bf.m_num_hashes) = bf.m_num_hashes := decLE_encLE 4 _ hk
  have hdn : decLE (encLE 8 bf.m_estimated_items) = bf.m_estimated_items := decLE_encLE 8 _ hn
  have hdp : decLE (encLE 8 bf.m_fp_rate) = bf.m_fp_rate := decLE_encLE 8 _ hp
  rw [List.append_assoc, List.append_assoc, List.append_assoc, List.append_assoc,
    List.append_assoc]
  rw [deserialize, readBytes_append 4 _ _ (encLE_length 4 _)]
  dsimp only
  rw [if_neg (by decide)]
  rw [readBytes_append 2 _ _ (encLE_length 2 _)]
  dsimp only
  rw [if_neg (by decide)]
  rw [readBytes_append 8 _ _ (encLE_length 8 _)]
  dsimp only
  rw [readBytes_append 4 _ _ (encLE_length 4 _)]
  dsimp only
  rw [readBytes_append 8 _ _ (encLE_length 8 _)]
  dsimp only
  rw [readBytes_append 8 _ _ (encLE_length 8 _)]
  dsimp only
  rw [hdm, hdk, hdn, hdp]
  rw [if_neg (by omega)]
  rw [readBytes_exact _ _ (by rw [List.length_map, List.length_range])]
  dsimp only
  rw [if_neg (by simp)]
  rw [← hwf, unpack_pack_list, hwf]

/-- Witness for c5_serialize_roundtrip at a concrete 9-bit filter (two packed
bytes, exercising the padding byte). -/
theorem c5_serialize_roundtrip_witness :
    ∃ file,
      (⟨9, 2, 5, 1, [true, false, true, true, false, false, false, true, true]⟩ :
        BloomFilter).serialize = some file ∧
      deserialize file =
        some ⟨9, 2, 5, 1, [true, false, true, true, false, false, false, true, true]⟩ :=
  c5_serialize_roundtrip
    ⟨9, 2, 5, 1, [true, false, true, true, false, false, false, true, true]⟩
    (by decide) (by decide) (by decide) (by decide) (by decide) (by decide)

/-- The BloomFilter constructor (bloom_filter.cpp lines 8-49).  The sizing
formulas run in floating point; their casted results are taken here as the
arbitrary inputs mRaw and kRaw, and the integer clamping that follows them is
embedded exactly: invalid (n, p) parameters yield the minimal 8-bit, 1-hash
filter; otherwise m is raised to at least 8 and k clamped into 1..20.  fpOk
models 0 < false_positive_rate < 1, pBits the stored bit pattern of the rate.
(The bad_alloc path throws and produces no filter object, so it has no
result state to model.) -/
def bloomConstruct (estimatedItems : Nat) (fpOk : Bool) (pBits mRaw kRaw : Nat) :
    BloomFilter :=
  if estimatedItems = 0 || !fpOk then
    ⟨8, 1, estimatedItems, pBits, List.replicate 8 false⟩
  else
    let m := if mRaw < 8 then 8 else mRaw
    let k := if kRaw < 1 then 1 else if 20 < kRaw then 20 else kRaw
    ⟨m, k, estimatedItems, pBits, List.replicate m false⟩

/-- C7 counterexample: a 35-byte file with correct magic and version, m = 1,
k = 21, n = 1 and one packed byte deserializes successfully into a filter that
reports valid yet violates both claimed invariants (m < 8 and k > 20):
deserialize never checks the m >= 8 and k <= 20 range. -/
theorem c7_counterexample :
    deserialize
      (encLE 4 BLOOM_FILTER_MAGIC ++ encLE 2 BLOOM_FILTER_VERSION ++ encLE 8 1 ++
        encLE 4 21 ++ encLE 8 1 ++ encLE 8 0 ++ [1]) =
      some ⟨1, 21, 1, 0, [true]⟩ ∧
    (⟨1, 21, 1, 0, [true]⟩ : BloomFilter).isValid = true ∧
    (⟨1, 21, 1, 0, [true]⟩ : BloomFilter).m_num_bits < 8 ∧
    20 < (⟨1, 21, 1, 0, [true]⟩ : BloomFilter).m_num_hashes := by
  refine ⟨by decide, by decide, by decide, by decide⟩

/-- C7 (amended): construction clamps into m >= 8 and 1 <= k <= 20 whatever
the floating-point sizing produced, and the result reports valid; deserialize
guarantees only the weaker m >= 1 and k >= 1 on the states it accepts
(rejecting wrong magic, wrong version, zero parameters, short reads and
trailing bytes), so a deserialized filter can report valid with m < 8 or
k > 20. -/
theorem c7_amended :
    (∀ n fpOk pBits mRaw kRaw,
      8 ≤ (bloomConstruct n fpOk pBits mRaw kRaw).m_num_bits ∧
      1 ≤ (bloomConstruct n fpOk pBits mRaw kRaw).m_num_hashes ∧
      (bloomConstruct n fpOk pBits mRaw kRaw).m_num_hashes ≤ 20 ∧
      (bloomConstruct n fpOk pBits mRaw kRaw).isValid = true ∧
      (bloomConstruct n fpOk pBits mRaw kRaw).m_bits.length =
        (bloomConstruct n fpOk pBits mRaw kRaw).m_num_bits) ∧
    (∀ file bf, deserialize file = some bf →
      bf.isValid = true ∧ 1 ≤ bf.m_num_bits ∧ 1 ≤ bf.m_num_hashes ∧
      bf.m_bits.length = bf.m_num_bits) := by
  constructor
  · intro n fpOk pBits mRaw kRaw
    rw [bloomConstruct]
    by_cases h : n = 0 || !fpOk
    · rw [if_pos h]
      refine ⟨le_rfl, le_rfl, by norm_num, by simp [BloomFilter.isValid], by simp⟩
    · rw [if_neg h]
      dsimp only
      refine ⟨?_, ?_, ?_, ?_, ?_⟩
      · split <;> omega
      · split <;> [omega; skip]
        split <;> omega
      · split <;> [omega; skip]
        split <;> omega
      · rw [BloomFilter.isValid, Bool.and_eq_true]
        constructor
        · have : (0 : Nat) < if mRaw < 8 then 8 else mRaw := by split <;> omega
          simp [List.isEmpty_iff, List.replicate_eq_nil_iff]
          omega
        · simp only [gt_iff_lt, decide_eq_true_eq]
          split <;> [omega; skip]
          split <;> omega
      · simp
  · intro file bf hdes
    rw [deserialize] at hdes
    rcases hr1 : readBytes 4 file with _ | ⟨magicB, r1⟩ <;> rw [hr1] at hdes
    · exact Option.noConfusion hdes
    dsimp only at hdes
    by_cases hmg : decLE magicB ≠ BLOOM_FILTER_MAGIC
    · rw [if_pos hmg] at hdes; exact Option.noConfusion hdes
    rw [if_neg hmg] at hdes
    rcases hr2 : readBytes 2 r1 with _ | ⟨verB, r2⟩ <;> rw [hr2] at hdes
    · exact Option.noConfusion hdes
    dsimp only at hdes
    by_cases hvr : decLE verB ≠ BLOOM_FILTER_VERSION
    · rw [if_pos hvr] at hdes; exact Option.noConfusion hdes
    rw [if_neg hvr] at hdes
    rcases hr3 : readBytes 8 r2 with _ | ⟨mB, r3⟩ <;> rw [hr3] at hdes
    · exact Option.noConfusion hdes
    dsimp only at hdes
    rcases hr4 : readBytes 4 r3 with _ | ⟨kB, r4⟩ <;> rw [hr4] at hdes
    · exact Option.noConfusion hdes
    dsimp only at hdes
    rcases hr5 : readBytes 8 r4 with _ | ⟨nB, r5⟩ <;> rw [hr5] at hdes
    · exact Option.noConfusion hdes
    dsimp only at hdes
    rcases hr6 : readBytes 8 r5 with _ | ⟨pB, r6⟩ <;> rw [hr6] at hdes
    · exact Option.noConfusion hdes
    dsimp only at hdes
    by_cases hz : decLE mB = 0 ∨ decLE kB = 0
    · rw [if_pos hz] at hdes; exact Option.noConfusion hdes
    rw [if_neg hz] at hdes
    rcases hr7 : readBytes ((decLE mB + 7) / 8) r6 with _ | ⟨packed, r7⟩ <;>
      rw [hr7] at hdes
    · exact Option.noConfusion hdes
    dsimp only at hdes
    by_cases htr : r7 ≠ []
    · rw [if_pos htr] at hdes; exact Option.noConfusion hdes
    rw [if_neg htr] at hdes
    injection hdes with hbf
    push_neg at hz
    obtain ⟨hz1, hz2⟩ := hz
    subst hbf
    refine ⟨?_, by simpa using Nat.pos_of_ne_zero hz1,
      by simpa using Nat.pos_of_ne_zero hz2, by simp⟩
    rw [BloomFilter.isValid, Bool.and_eq_true]
    constructor
    · simp [List.isEmpty_iff]
      omega
    · simpa using Nat.pos_of_ne_zero hz2

/-- Witness for c7_amended: the constructor clamp at raw sizes 3 and 25, and
deserialize on the serialized minimal valid filter. -/
theorem c7_amended_witness :
    (8 ≤ (bloomConstruct 5 true 7 3 25).m_num_bits ∧
      1 ≤ (bloomConstruct 5 true 7 3 25).m_num_hashes ∧
      (bloomConstruct 5 true 7 3 25).m_num_hashes ≤ 20 ∧
      (bloomConstruct 5 true 7 3 25).isValid = true ∧
      (bloomConstruct 5 true 7 3 25).m_bits.length =
        (bloomConstruct 5 true 7 3 25).m_num_bits) ∧
    ((⟨1, 21, 1, 0, [true]⟩ : BloomFilter).isValid = true ∧
      1 ≤ (⟨1, 21, 1, 0, [true]⟩ : BloomFilter).m_num_bits ∧
      1 ≤ (⟨1, 21, 1, 0, [true]⟩ : BloomFilter).m_num_hashes ∧
      (⟨1, 21, 1, 0, [true]⟩ : BloomFilter).m_bits.length =
        (⟨1, 21, 1, 0, [true]⟩ : BloomFilter).m_num_bits) :=
  ⟨c7_amended.1 5 true 7 3 25,
   c7_amended.2
     (encLE 4 BLOOM_FILTER_MAGIC ++ encLE 2 BLOOM_FILTER_VERSION ++ encLE 8 1 ++
       encLE 4 21 ++ encLE 8 1 ++ encLE 8 0 ++ [1])
     ⟨1, 21, 1, 0, [true]⟩ (by decide)⟩

/-- The controller state at the finalization block of
brute_force_worker_combined (part_000 lines 1266-1330): which pointers were
configured, the skip-file path, the filter validity probe, and the two run
flags with the found password slot. -/
structure RunEndState where
  filterPresent : Bool
  mutexPresent : Bool
  skipPath : List Char
  filterValid : Bool
  found : Bool
  stopRequested : Bool
  foundPassword : List Char

/-- The performFinalSave decision (part_000 lines 1270-1274): filter pointer,
mutex pointer, non-empty path, valid filter, and found-or-stopped. -/
def performFinalSave (st : RunEndState) : Bool :=
  st.filterPresent && st.mutexPresent && !st.skipPath.isEmpty &&
    st.filterValid && (st.found || st.stopRequested)

/-- The returned result of the finalization block (part_000 lines 1313-1330):
the found password on success, the empty string otherwise. -/
def finalResult (st : RunEndState) : List Char :=
  if st.found then st.foundPassword else []

/-- C6: at a non-exception termination the controller serializes the filter to
the configured skip-file path iff a filter and its mutex are configured (with
a non-empty skip-file path), the filter is valid, and found or stop_requested
is set; in particular a clean exhaustion with neither flag set performs no
final save. -/
theorem c6_final_save (st : RunEndState) :
    (performFinalSave st = true ↔
      (st.filterPresent = true ∧ st.mutexPresent = true ∧ st.skipPath ≠ [] ∧
        st.filterValid = true ∧ (st.found = true ∨ st.stopRequested = true))) ∧
    (st.found = false → st.stopRequested = false → performFinalSave st = false) := by
  constructor
  · rw [performFinalSave]
    simp [List.isEmpty_iff, and_assoc]
  · intro hf hs
    rw [performFinalSave, hf, hs]
    simp

/-- Witness for c6_final_save at a concrete clean-exhaustion state. -/
theorem c6_final_save_witness :
    (performFinalSave ⟨true, true, ['s'], true, false, false, []⟩ = true ↔
      ((true : Bool) = true ∧ (true : Bool) = true ∧ (['s'] : List Char) ≠ [] ∧
        (true : Bool) = true ∧ ((false : Bool) = true ∨ (false : Bool) = true))) ∧
    ((false : Bool) = false → (false : Bool) = false →
      performFinalSave ⟨true, true, ['s'], true, false, false, []⟩ = false) :=
  c6_final_save ⟨true, true, ['s'], true, false, false, []⟩

/-- The outcome of one worker loop iteration's stop-flag handling. -/
structure StopStepResult where
  serializes : Bool
  setsStopRequested : Bool
  exitsLoop : Bool
  deriving DecidableEq

/-- The stop-flag handling of sequential_password_worker (part_000 lines
513-520): every 1000 iterations, if the path is set and the flag file exists,
set stop_requested and break; no serialization. -/
def sequentialWorkerStopStep (idx : Nat) (pathNonempty flagExists fp mp : Bool) :
    StopStepResult :=
  if idx % 1000 = 0 ∧ pathNonempty = true ∧ flagExists = true then
    ⟨false, true, true⟩
  else ⟨false, false, false⟩

/-- The stop-flag handling of pattern_index_worker (part_000 lines 551-564):
every 1000 iterations, if the flag file exists, serialize the filter under the
filter mutex (when both are configured), then set stop_requested and break. -/
def patternIndexWorkerStopStep (idx : Nat) (pathNonempty flagExists fp mp : Bool) :
    StopStepResult :=
  if idx % 1000 = 0 ∧ flagExists = true then
    ⟨fp && mp, true, true⟩
  else ⟨false, false, false⟩

/-- The stop-flag handling of shuffled_index_worker (part_000 lines 605-612):
identical to the sequential worker, no serialization. -/
def shuffledIndexWorkerStopStep (idx : Nat) (pathNonempty flagExists fp mp : Bool) :
    StopStepResult :=
  if idx % 1000 = 0 ∧ pathNonempty = true ∧ flagExists = true then
    ⟨false, true, true⟩
  else ⟨false, false, false⟩

/-- The stop-flag handling of shuffled_pattern_worker (part_000 lines
653-667): identical to the pattern-index worker, it serializes the filter
before setting stop_requested. -/
def shuffledPatternWorkerStopStep (idx : Nat) (pathNonempty flagExists fp mp : Bool) :
    StopStepResult :=
  if idx % 1000 = 0 ∧ flagExists = true then
    ⟨fp && mp, true, true⟩
  else ⟨false, false, false⟩

/-- C8 counterexample: when the pattern-index worker (and likewise the
shuffled-pattern worker) detects the stop flag with a filter and mutex
configured, it serializes the filter to disk, contradicting the claim that no
worker ever serializes. -/
theorem c8_counterexample :
    (patternIndexWorkerStopStep 0 true true true true).serializes = true ∧
    (shuffledPatternWorkerStopStep 0 true true true true).serializes = true := by
  refine ⟨by decide, by decide⟩

/-- C8 (amended): the sequential and shuffled-index workers never serialize
and only set stop_requested and exit when their every-1000-iterations check
detects the stop flag; the pattern-index and shuffled-pattern workers behave
the same way except that, when a filter and its mutex are configured, they
additionally serialize the filter (under the mutex) before setting
stop_requested. -/
theorem c8_amended (idx : Nat) (pathNonempty flagExists fp mp : Bool) :
    ((sequentialWorkerStopStep idx pathNonempty flagExists fp mp).serializes = false ∧
      ((sequentialWorkerStopStep idx pathNonempty flagExists fp mp).setsStopRequested = true ↔
        (idx % 1000 = 0 ∧ pathNonempty = true ∧ flagExists = true)) ∧
      (sequentialWorkerStopStep idx pathNonempty flagExists fp mp).exitsLoop =
        (sequentialWorkerStopStep idx pathNonempty flagExists fp mp).setsStopRequested) ∧
    ((shuffledIndexWorkerStopStep idx pathNonempty flagExists fp mp).serializes = false ∧
      ((shuffledIndexWorkerStopStep idx pathNonempty flagExists fp mp).setsStopRequested = true ↔
        (idx % 1000 = 0 ∧ pathNonempty = true ∧ flagExists = true)) ∧
      (shuffledIndexWorkerStopStep idx pathNonempty flagExists fp mp).exitsLoop =
        (shuffledIndexWorkerStopStep idx pathNonempty flagExists fp mp).setsStopRequested) ∧
    (((patternIndexWorkerStopStep idx pathNonempty flagExists fp mp).serializes = true ↔
        (idx % 1000 = 0 ∧ flagExists = true ∧ fp = true ∧ mp = true)) ∧
      ((patternIndexWorkerStopStep idx pathNonempty flagExists fp mp).setsStopRequested = true ↔
        (idx % 1000 = 0 ∧ flagExists = true)) ∧
      (patternIndexWorkerStopStep idx pathNonempty flagExists fp mp).exitsLoop =
        (patternIndexWorkerStopStep idx pathNonempty flagExists fp mp).setsStopRequested) ∧
    (((shuffledPatternWorkerStopStep idx pathNonempty flagExists fp mp).serializes = true ↔
        (idx % 1000 = 0 ∧ flagExists = true ∧ fp = true ∧ mp = true)) ∧
      ((shuffledPatternWorkerStopStep idx pathNonempty flagExists fp mp).setsStopRequested = true ↔
        (idx % 1000 = 0 ∧ flagExists = true)) ∧
      (shuffledPatternWorkerStopStep idx pathNonempty flagExists fp mp).exitsLoop =
        (shuffledPatternWorkerStopStep idx pathNonempty flagExists fp mp).setsStopRequested) := by
  refine ⟨⟨?_, ?_, ?_⟩, ⟨?_, ?_, ?_⟩, ⟨?_, ?_, ?_⟩, ⟨?_, ?_, ?_⟩⟩ <;>
    simp only [sequentialWorkerStopStep, shuffledIndexWorkerStopStep,
      patternIndexWorkerStopStep, shuffledPatternWorkerStopStep] <;>
    split <;> simp_all

/-- itemsPerThread (part_000 lines 1123-1124): the 64-bit ceiling division
(N + T - 1) / T, corrected to 1 when it comes out zero; the addition wraps
modulo 2^64 as the C++ uint64 arithmetic does. -/
def itemsPerThread (N T : Nat) : Nat :=
  let ipt := ((N + T - 1) % TWO64) / T
  if ipt = 0 then 1 else ipt

/-- The startIdx of chunk t (part_000 line 1130), in 64-bit arithmetic. -/
def chunkStart (N T t : Nat) : Nat := (t * itemsPerThread N T) % TWO64

/-- The endIdx of chunk t (part_000 line 1131): min(startIdx + itemsPerThread,
total), in 64-bit arithmetic. -/
def chunkEnd (N T t : Nat) : Nat :=
  min ((chunkStart N T t + itemsPerThread N T) % TWO64) N

/-- The spawn loop (part_000 lines 1128-1138): one chunk per thread index t in
0..T-1, stopping at the first empty chunk (the startIdx >= endIdx break). -/
def chunksFrom (N T : Nat) : Nat → Nat → List (Nat × Nat)
  | _, 0 => []
  | t, fuel + 1 =>
      if T ≤ t then []
      else if chunkEnd N T t ≤ chunkStart N T t then []
      else (chunkStart N T t, chunkEnd N T t) :: chunksFrom N T (t + 1) fuel

/-- The chunks actually spawned for a total of N indices over T threads. -/
def chunkList (N T : Nat) : List (Nat × Nat) := chunksFrom N T 0 T

/-- C9 counterexample: at N = 2^64 - 1 and T = 2 the 64-bit sum N + T - 1
wraps to zero, itemsPerThread collapses to 1, and only the chunks [0,1) and
[1,2) are spawned: index 4 lies below N but in no chunk, so the chunks do not
cover [0, N). -/
theorem c9_counterexample :
    (4 : Nat) < 18446744073709551615 ∧
    ¬ ∃ c ∈ chunkList 18446744073709551615 2, c.1 ≤ 4 ∧ 4 < c.2 := by
  refine ⟨by norm_num, by decide⟩

/-- C9 (amended): for every N >= 1 and T >= 1 such that N + T - 1 fits in 64
bits, the spawned chunks are exactly the non-empty intervals
[t * ceil(N/T), min((t+1) * ceil(N/T), N)), they are pairwise disjoint (each
ends no later than the next begins), and their union is exactly [0, N); hence
in deterministic modes a thread-count change never alters the set of candidate
indices dispatched for a length. -/
theorem c9_chunking (N T : Nat) (hN : 1 ≤ N) (hT : 1 ≤ T)
    (hfit : N + T - 1 ≤ U64MAX) :
    (∀ i, (∃ c ∈ chunkList N T, c.1 ≤ i ∧ i < c.2) ↔ i < N) ∧
    List.Pairwise (fun c c' : Nat × Nat => c.2 ≤ c'.1) (chunkList N T) ∧
    (∀ c ∈ chunkList N T, ∃ t, t < T ∧
      c = (t * itemsPerThread N T, min ((t + 1) * itemsPerThread N T) N)) := by
  have hmod : TWO64 = U64MAX + 1 := by norm_num [TWO64, U64MAX]
  have hm1 : (N + T - 1) % TWO64 = N + T - 1 := Nat.mod_eq_of_lt (by omega)
  have hI : itemsPerThread N T = (N + T - 1) / T := by
    rw [itemsPerThread, hm1]
    have : 1 ≤ (N + T - 1) / T := by
      rw [Nat.le_div_iff_mul_le (by omega)]
      omega
    rw [if_neg (by omega)]
  set I := (N + T - 1) / T with hIdef
  have hIpos : 1 ≤ I := by
    rw [hIdef, Nat.le_div_iff_mul_le (by omega)]
    omega
  have hTI_le : T * I ≤ N + T - 1 := by
    rw [hIdef, Nat.mul_comm]
    exact Nat.div_mul_le_self _ _
  have hN_le : N ≤ T * I := by
    have hx := Nat.lt_div_mul_add (a := N + T - 1) (show 0 < T by omega)
    have harr : (N + T - 1) / T * T + T = T * I + T := by
      rw [hIdef]; ring
    omega
  have hstart : ∀ t, t ≤ T → chunkStart N T t = t * I := by
    intro t ht
    rw [chunkStart, hI]
    exact Nat.mod_eq_of_lt (by
      have : t * I ≤ T * I := Nat.mul_le_mul_right _ ht
      omega)
  have hend : ∀ t, t < T → chunkEnd N T t = min ((t + 1) * I) N := by
    intro t ht
    rw [chunkEnd, hstart t (by omega), hI]
    have harr : t * I + I = (t + 1) * I := by ring
    rw [harr]
    congr 1
    exact Nat.mod_eq_of_lt (by
      have : (t + 1) * I ≤ T * I := Nat.mul_le_mul_right _ (by omega)
      omega)
  have hcov : ∀ fuel t, t + fuel = T →
      ∀ i, (∃ c ∈ chunksFrom N T t fuel, c.1 ≤ i ∧ i < c.2) ↔ (t * I ≤ i ∧ i < N) := by
    intro fuel
    induction fuel with
    | zero =>
        intro t ht i
        rw [chunksFrom]
        simp only [List.not_mem_nil]
        constructor
        · rintro ⟨c, hc, -⟩; exact absurd hc (by simp)
        · rintro ⟨h1, h2⟩
          have : t = T := by omega
          subst this
          omega
    | succ fuel ih =>
        intro t ht i
        rw [chunksFrom, if_neg (by omega)]
        have hs := hstart t (by omega)
        have he := hend t (by omega)
        have harr : (t + 1) * I = t * I + I := by ring
        by_cases hbreak : chunkEnd N T t ≤ chunkStart N T t
        · rw [if_pos hbreak]
          rw [hs, he] at hbreak
          simp only [List.not_mem_nil]
          constructor
          · rintro ⟨c, hc, -⟩; exact absurd hc (by simp)
          · rintro ⟨h1, h2⟩
            rw [min_le_iff] at hbreak
            omega
        · rw [if_neg hbreak]
          rw [hs, he] at hbreak ⊢
          push_neg at hbreak
          rw [lt_min_iff] at hbreak
          constructor
          · rintro ⟨c, hc, h1, h2⟩
            rcases List.mem_cons.mp hc with rfl | hmem
            · simp only [] at h1 h2
              rw [lt_min_iff] at h2
              omega
            · have := (ih (t + 1) (by omega) i).mp ⟨c, hmem, h1, h2⟩
              omega
          · rintro ⟨h1, h2⟩
            rcases Nat.lt_or_ge i ((t + 1) * I) with hlt | hge
            · exact ⟨(t * I, min ((t + 1) * I) N), by simp, h1, by rw [lt_min_iff]; omega⟩
            · obtain ⟨c, hc, hc1, hc2⟩ := (ih (t + 1) (by omega) i).mpr ⟨hge, h2⟩
              exact ⟨c, List.mem_cons_of_mem _ hc, hc1, hc2⟩
  have hlb : ∀ fuel t, ∀ c ∈ chunksFrom N T t fuel, t * I ≤ c.1 := by
    intro fuel
    induction fuel with
    | zero => intro t c hc; rw [chunksFrom] at hc; exact absurd hc (by simp)
    | succ fuel ih =>
        intro t c hc
        rw [chunksFrom] at hc
        by_cases h1 : T ≤ t
        · rw [if_pos h1] at hc; exact absurd hc (by simp)
        rw [if_neg h1] at hc
        by_cases h2 : chunkEnd N T t ≤ chunkStart N T t
        · rw [if_pos h2] at hc; exact absurd hc (by simp)
        rw [if_neg h2] at hc
        rcases List.mem_cons.mp hc with rfl | hmem
        · rw [hstart t (by omega)]
        · have := ih (t + 1) c hmem
          have harr : (t + 1) * I = t * I + I := by ring
          omega
  have hpw : ∀ fuel t, List.Pairwise (fun c c' : Nat × Nat => c.2 ≤ c'.1)
      (chunksFrom N T t fuel) := by
    intro fuel
    induction fuel with
    | zero => intro t; rw [chunksFrom]; exact List.Pairwise.nil
    | succ fuel ih =>
        intro t
        rw [chunksFrom]
        by_cases h1 : T ≤ t
        · rw [if_pos h1]; exact List.Pairwise.nil
        rw [if_neg h1]
        by_cases h2 : chunkEnd N T t ≤ chunkStart N T t
        · rw [if_pos h2]; exact List.Pairwise.nil
        rw [if_neg h2]
        refine List.Pairwise.cons ?_ (ih (t + 1))
        intro c hc
        have hcl := hlb fuel (t + 1) c hc
        rw [hend t (by omega)]
        have harr : (t + 1) * I = t * I + I := by ring
        simp only []
        rw [min_le_iff]
        omega
  have hform : ∀ fuel t, ∀ c ∈ chunksFrom N T t fuel, ∃ t', t' < T ∧
      c = (t' * I, min ((t' + 1) * I) N) := by
    intro fuel
    induction fuel with
    | zero => intro t c hc; rw [chunksFrom] at hc; exact absurd hc (by simp)
    | succ fuel ih =>
        intro t c hc
        rw [chunksFrom] at hc
        by_cases h1 : T ≤ t
        · rw [if_pos h1] at hc; exact absurd hc (by simp)
        rw [if_neg h1] at hc
        by_cases h2 : chunkEnd N T t ≤ chunkStart N T t
        · rw [if_pos h2] at hc; exact absurd hc (by simp)
        rw [if_neg h2] at hc
        rcases List.mem_cons.mp hc with rfl | hmem
        · exact ⟨t, by omega, by rw [hstart t (by omega), hend t (by omega)]⟩
        · exact ih (t + 1) c hmem
  refine ⟨?_, hpw T 0, ?_⟩
  · intro i
    rw [chunkList]
    have := hcov T 0 (by omega) i
    simpa using this
  · intro c hc
    obtain ⟨t', ht', hceq⟩ := hform T 0 c hc
    exact ⟨t', ht', by rw [hceq, hI]⟩

/-- Witness for c9_chunking at N = 10 indices over T = 3 threads. -/
theorem c9_chunking_witness :
    (∀ i, (∃ c ∈ chunkList 10 3, c.1 ≤ i ∧ i < c.2) ↔ i < 10) ∧
    List.Pairwise (fun c c' : Nat × Nat => c.2 ≤ c'.1) (chunkList 10 3) ∧
    (∀ c ∈ chunkList 10 3, ∃ t, t < 3 ∧
      c = (t * itemsPerThread 10 3, min ((t + 1) * itemsPerThread 10 3) 10)) :=
  c9_chunking 10 3 (by norm_num) (by norm_num) (by norm_num [U64MAX])
